import Mathlib

/-!
Verification development for the disk-usage analyzer (src/analyzer.py).

The Python class DiskAnalyzer is shallowly embedded: its mutable attributes
become an explicit AnalyzerState record threaded through the functions, the
filesystem and clock are inputs (a scan strategy receives the directory
entries / streamed lines it would observe), and fallible or platform calls
(disk usage query, du output parsing) become parameters.  Machine floats in
the source only ever hold ratios and percentages of integers; they are
modelled as rationals.
-/

namespace DiskAnalyzer

/-- A filesystem path, as its list of components (the string form only ever
flows through os.path.dirname / basename / equality in the analyzer). -/
abbrev Path := List String

/-- Models os.path.basename: the last component. -/
def basename (p : Path) : String := p.getLast?.getD ""

/-- Models os.path.dirname: drop the last component. -/
def dirname (p : Path) : Path := p.dropLast

/-- Lookup in an insertion-ordered map (Python dict / defaultdict(int)):
missing keys read as 0. -/
def lookupD {α : Type} [DecidableEq α] : List (α × Nat) → α → Nat
  | [], _ => 0
  | e :: rest, k => if e.1 = k then e.2 else lookupD rest k

/-- Models `m[k] += v` on a Python dict with default 0: an existing key is
updated in place (its position kept), a new key is appended at the end,
mirroring dict insertion-order semantics. -/
def bump {α : Type} [DecidableEq α] : List (α × Nat) → α → Nat → List (α × Nat)
  | [], k, v => [(k, v)]
  | e :: rest, k, v =>
    if e.1 = k then (e.1, e.2 + v) :: rest else e :: bump rest k v

/-- Directory-size accumulator `dir_sizes` (a Python dict path → bytes). -/
abbrev DirMap := List (Path × Nat)

/-- A file record as produced by the scan strategies
(`{'path': ..., 'size': ..., 'ext': ...}` / find lines with mtime).
Strategy dicts that omit a key are modelled by the default the reading code
supplies ('no_ext' for ext, 0 for mtime). -/
structure FileEntry where
  path : Path
  size : Nat
  ext : String
  mtime : Nat
  deriving DecidableEq

/-- The `scan_stats` dict (lines 45-49). -/
structure Stats where
  scannedFiles : Nat
  scannedBytes : Nat
  currentPath : Path
  deriving DecidableEq

/-- A cleanable-file entry (lines 661-665); ctype is the Python 'type' key. -/
structure CleanEntry where
  path : Path
  size : Nat
  ctype : String
  deriving DecidableEq

/-- One synthetic history point (lines 734-738); the date string is modelled
by the day index i of the generating loop. -/
structure HistoryEntry where
  dayIndex : Nat
  usage : Nat
  size : Nat
  deriving DecidableEq

/-- The analyzer's run-scoped mutable attributes (lines 44-61).
duplicate_files is the defaultdict(list) of line 58; no code in the
repository ever inserts into it.  skipped_paths and flat_dirs are written
nowhere / read nowhere and are elided. -/
structure AnalyzerState where
  scanStats : Stats
  fileTypes : List (String × Nat)
  topFiles : List (Nat × Path)
  cleanableFiles : List CleanEntry
  duplicateFiles : List (String × List Path)
  historyData : List HistoryEntry

/-- The analyzer's immutable configuration (constructor arguments plus the
compiled pattern tables).  shouldSkip models the compiled exclude_patterns
test of should_skip (lines 140-145); classifyCleanable models the first
matching cleanable_patterns entry of _identify_cleanable_file_fast
(lines 655-666), returning the matched category. -/
structure Config where
  rootPath : Path
  maxDepth : Nat
  shouldSkip : Path → Bool
  classifyCleanable : Path → Option String

/-- The attribute state right after __init__ (lines 44-61): zero counters,
current_path = root, all accumulators empty. -/
def initialState (cfg : Config) : AnalyzerState :=
  { scanStats := { scannedFiles := 0, scannedBytes := 0, currentPath := cfg.rootPath }
    fileTypes := []
    topFiles := []
    cleanableFiles := []
    duplicateFiles := []
    historyData := [] }

/-- _update_progress (lines 147-154): add to the shared counters, update
current_path when a path is given.  The lock serializes access; the model is
single-threaded so the lock is elided. -/
def updateProgress (st : AnalyzerState) (files bytes : Nat) (path : Option Path) :
    AnalyzerState :=
  { st with scanStats :=
      { scannedFiles := st.scanStats.scannedFiles + files
        scannedBytes := st.scanStats.scannedBytes + bytes
        currentPath := match path with
          | some p => p
          | none => st.scanStats.currentPath } }

/-- Lexicographic comparison of path component lists, standing in for the
Python string comparison used by tuple ordering in the heap. -/
def pathLe : Path → Path → Bool
  | [], _ => true
  | _ :: _, [] => false
  | a :: as, b :: bs =>
    if a < b then true else if b < a then false else pathLe as bs

/-- Python tuple order on the (size, path) heap entries. -/
def pairLe (a b : Nat × Path) : Bool :=
  if a.1 < b.1 then true else if b.1 < a.1 then false else pathLe a.2 b.2

/-- Ordered insertion.  heapq maintains a binary min-heap over the (size,
path) tuples; the model keeps the same multiset as an ascending sorted list,
so the heap root heap[0] is the head. -/
def insertPair (x : Nat × Path) : List (Nat × Path) → List (Nat × Path)
  | [] => [x]
  | y :: ys => if pairLe x y then x :: y :: ys else y :: insertPair x ys

/-- top_files[0][0]: size component of the heap minimum (the guard in the
source only reads it when the heap is full, hence nonempty). -/
def topMinSize (h : List (Nat × Path)) : Nat := (h.headD (0, [])).1

/-- self.top_n_limit (line 56). -/
def topNLimit : Nat := 50

/-- The top-files maintenance step of _process_batch_fast (lines 640-643):
heappush while under capacity, heapreplace (pop the minimum, push the new
entry) when full and the new size is strictly larger. -/
def topPush (h : List (Nat × Path)) (limit : Nat) (size : Nat) (p : Path) :
    List (Nat × Path) :=
  if h.length < limit then insertPair (size, p) h
  else if topMinSize h < size then insertPair (size, p) h.tail
  else h

/-- _identify_cleanable_file_fast (lines 655-666): append an entry when some
cleanable pattern matches. -/
def identifyCleanable (cfg : Config) (st : AnalyzerState) (f : FileEntry) :
    AnalyzerState :=
  match cfg.classifyCleanable f.path with
  | some t => { st with cleanableFiles := st.cleanableFiles ++ [⟨f.path, f.size, t⟩] }
  | none => st

/-- The per-file body of _process_batch_fast (lines 629-653): file-type
histogram, top-files heap, cleanable detection, then dir_sizes gets the
file's size added at its directory and at the root.  ext is read with
default 'no_ext'; the `if not ext` refallback of line 632 never fires
because no strategy stores an empty ext. -/
def processFile (cfg : Config) (sd : AnalyzerState × DirMap) (f : FileEntry) :
    AnalyzerState × DirMap :=
  let st := sd.1
  let st := { st with fileTypes := bump st.fileTypes f.ext f.size }
  let st := { st with topFiles := topPush st.topFiles topNLimit f.size f.path }
  let st := identifyCleanable cfg st f
  let ds := bump sd.2 (dirname f.path) f.size
  let ds := bump ds cfg.rootPath f.size
  (st, ds)

/-- _process_batch_fast (lines 627-653). -/
def processBatchFast (cfg : Config) (st : AnalyzerState) (ds : DirMap)
    (files : List FileEntry) : AnalyzerState × DirMap :=
  files.foldl (processFile cfg) (st, ds)

/-- A node of the result tree: the dicts built in _build_tree_from_dirs /
_scan_du / _create_partial_result. -/
structure TreeNode where
  path : Path
  name : String
  size : Nat
  children : List TreeNode
  percentage : ℚ

/-- Stable insertion for a descending sort by a Nat key: a new element goes
after every element with a greater-or-equal key. -/
def insByKeyDesc {α : Type} (key : α → Nat) (x : α) : List α → List α
  | [] => [x]
  | y :: ys => if key x ≤ key y then y :: insByKeyDesc key x ys else x :: y :: ys

/-- Python's sorted(l, key=..., reverse=True): stable descending sort
(ties keep their original relative order). -/
def sortByKeyDesc {α : Type} (key : α → Nat) (l : List α) : List α :=
  l.foldl (fun acc x => insByKeyDesc key x acc) []

/-- _build_tree_from_dirs (lines 668-709): empty map gives a zero root;
otherwise the root node carries dir_sizes[root], direct children of the root
are picked out of dir_sizes in order, sorted by size descending and capped
at 100, each with percentage size/root_size*100 (0 when root_size is 0) and
an empty children list. -/
def buildTreeFromDirs (rootPath : Path) (dirSizes : DirMap) : TreeNode :=
  match dirSizes with
  | [] => { path := rootPath, name := basename rootPath, size := 0
            children := [], percentage := 100 }
  | _ =>
    let rootSize := lookupD dirSizes rootPath
    let childDirs := dirSizes.filter
      (fun e => !(decide (e.1 = rootPath)) && decide (dirname e.1 = rootPath))
    let chosen := (sortByKeyDesc (fun e => e.2) childDirs).take 100
    { path := rootPath
      name := basename rootPath
      size := rootSize
      children := chosen.map (fun e =>
        { path := e.1, name := basename e.1, size := e.2, children := []
          percentage := if 0 < rootSize then (e.2 : ℚ) / (rootSize : ℚ) * 100 else 0 })
      percentage := 100 }

/-- One file as os.walk lists it inside a directory: name, stat size, and the
extension (`os.path.splitext(file)[1].lower() or 'no_ext'`, supplied with the
record since splitext only depends on the name). -/
structure WFile where
  name : String
  size : Nat
  ext : String
  deriving DecidableEq

/-- One (root, files) step yielded by os.walk.  The dirs pruning
(`dirs[:] = ...` and `del dirs[:]`) determines which steps os.walk yields
next; the model takes the yielded steps as input. -/
structure WalkDir where
  dir : Path
  files : List WFile
  deriving DecidableEq

/-- The cooperative stop event: stopAt = some k means the event becomes set
just before the k-th poll; once set it stays set.  stopSet tells whether the
i-th poll observes it. -/
def stopSet (stopAt : Option Nat) (i : Nat) : Bool :=
  match stopAt with
  | none => false
  | some k => decide (k ≤ i)

/-- The walk strategy's loop accumulator: the analyzer state (progress
counters), the local dir_sizes and all_files of _scan_walk. -/
structure WalkAcc where
  st : AnalyzerState
  dirSizes : DirMap
  allFiles : List FileEntry

/-- `root[len(self.root_path):].count(os.sep)`: number of components below
the root. -/
def depthOf (cfg : Config) (dir : Path) : Nat := dir.length - cfg.rootPath.length

/-- The per-file body of the _scan_walk loop (lines 513-532): skip excluded
paths, else record the file, add its size to dir_sizes at the containing
directory and at the root, and update progress by (1, size).  stat errors
(PermissionError/OSError continue) are modelled by the input only listing
stat-able files. -/
def walkFile (cfg : Config) (dir : Path) (acc : WalkAcc) (f : WFile) : WalkAcc :=
  let full := dir ++ [f.name]
  if cfg.shouldSkip full then acc
  else
    { st := updateProgress acc.st 1 f.size (some full)
      dirSizes := bump (bump acc.dirSizes dir f.size) cfg.rootPath f.size
      allFiles := acc.allFiles ++ [⟨full, f.size, f.ext, 0⟩] }

/-- One os.walk step of _scan_walk (lines 493-532): update current_path,
skip the directory's files entirely beyond max_depth, else process them. -/
def walkDir (cfg : Config) (acc : WalkAcc) (wd : WalkDir) : WalkAcc :=
  let acc := { acc with st := updateProgress acc.st 0 0 (some wd.dir) }
  if cfg.maxDepth < depthOf cfg wd.dir then acc
  else wd.files.foldl (walkFile cfg wd.dir) acc

/-- The walk loop with its per-directory stop poll (line 494): observing the
stop event breaks out. -/
def walkLoop (cfg : Config) (stopAt : Option Nat) :
    WalkAcc → List WalkDir → Nat → WalkAcc
  | acc, [], _ => acc
  | acc, wd :: rest, i =>
    if stopSet stopAt i then acc
    else walkLoop cfg stopAt (walkDir cfg acc wd) rest (i + 1)

/-- _scan_walk (lines 487-540): run the walk loop from empty local
accumulators, batch-process every recorded file (which adds each size to
dir_sizes a second time), and build the tree. -/
def scanWalk (cfg : Config) (st : AnalyzerState) (dirs : List WalkDir)
    (stopAt : Option Nat) : AnalyzerState × TreeNode :=
  let acc := walkLoop cfg stopAt ⟨st, [], []⟩ dirs 0
  let sd := processBatchFast cfg acc.st acc.dirSizes acc.allFiles
  (sd.1, buildTreeFromDirs cfg.rootPath sd.2)

/-- Observer: the all_files list a given walk run records (it does not
depend on the incoming analyzer state). -/
def walkAllFiles (cfg : Config) (dirs : List WalkDir) (stopAt : Option Nat) :
    List FileEntry :=
  (walkLoop cfg stopAt ⟨initialState cfg, [], []⟩ dirs 0).allFiles

/-- One parsed line of the find command output: path, size, mtime
(lines 312-332). -/
structure FindLine where
  path : Path
  size : Nat
  mtime : Nat
  deriving DecidableEq

/-- _scan_fast_find's loop state: the analyzer state, the local dir_sizes,
the current batch_files, and file_count. -/
structure FindAcc where
  st : AnalyzerState
  dirSizes : DirMap
  batch : List FileEntry
  count : Nat

/-- batch_size (line 309). -/
def findBatchSize : Nat := 1000

/-- The batch dict of lines 328-332: path, size, mtime and no 'ext' key, so
the reading default 'no_ext' is stored. -/
def findEntry (l : FindLine) : FileEntry := ⟨l.path, l.size, "no_ext", l.mtime⟩

/-- The per-line body of _scan_fast_find (lines 320-347): skip excluded
paths; otherwise append to the batch and count the file; every 1000th file
flushes: progress gains (1000, sum of batch sizes) and the batch is
processed into the aggregates and cleared. -/
def findFile (cfg : Config) (acc : FindAcc) (l : FindLine) : FindAcc :=
  if cfg.shouldSkip l.path then acc
  else
    let f : FileEntry := findEntry l
    let batch := acc.batch ++ [f]
    let count := acc.count + 1
    if decide (count % findBatchSize = 0) then
      let st := updateProgress acc.st findBatchSize
        ((batch.map FileEntry.size).sum) (some l.path)
      let sd := processBatchFast cfg st acc.dirSizes batch
      { st := sd.1, dirSizes := sd.2, batch := [], count := count }
    else
      { acc with batch := batch, count := count }

/-- The find streaming loop with its per-line stop poll (line 313): the stop
event terminates the process and breaks. -/
def findLoop (cfg : Config) (stopAt : Option Nat) :
    FindAcc → List FindLine → Nat → FindAcc
  | acc, [], _ => acc
  | acc, l :: rest, i =>
    if stopSet stopAt i then acc
    else findLoop cfg stopAt (findFile cfg acc l) rest (i + 1)

/-- _scan_fast_find (lines 281-355): stream the lines, then process the
leftover partial batch into the aggregates (note: with no progress update),
and build the tree. -/
def scanFastFind (cfg : Config) (st : AnalyzerState) (lines : List FindLine)
    (stopAt : Option Nat) : AnalyzerState × TreeNode :=
  let acc := findLoop cfg stopAt ⟨st, [], [], 0⟩ lines 0
  let sd := if acc.batch.isEmpty then (acc.st, acc.dirSizes)
    else processBatchFast cfg acc.st acc.dirSizes acc.batch
  (sd.1, buildTreeFromDirs cfg.rootPath sd.2)

/-- Observer: the lines a given find run accepts into batches (the stream
filtered by the stop poll and the exclusion test). -/
def findRecorded (cfg : Config) (stopAt : Option Nat) :
    List FindLine → Nat → List FindLine
  | [], _ => []
  | l :: rest, i =>
    if stopSet stopAt i then []
    else if cfg.shouldSkip l.path then findRecorded cfg stopAt rest (i + 1)
    else l :: findRecorded cfg stopAt rest (i + 1)

/-- _scan_du (lines 542-591): a single-node tree holding the external
summary tool's reported total (the subprocess output parsing is modelled by
taking that total as input; the failure branch is the same shape with 0). -/
def scanDu (cfg : Config) (duSize : Nat) : TreeNode :=
  { path := cfg.rootPath, name := basename cfg.rootPath, size := duSize
    children := [], percentage := 100 }

/-- _scan_hybrid (lines 593-625): take the du total, cap the depth at 2 for
trees over 10 GiB, run a fresh backup analyzer's _scan_walk, keep the max of
the two totals and the detailed children, and add the backup analyzer's
progress counters onto this analyzer's. -/
def scanHybrid (cfg : Config) (st : AnalyzerState) (duSize : Nat)
    (dirs : List WalkDir) (stopAt : Option Nat) : AnalyzerState × TreeNode :=
  let baseTree := scanDu cfg duSize
  let scanDepth := if 10 * 1024 ^ 3 < duSize then min cfg.maxDepth 2 else cfg.maxDepth
  let backupCfg := { cfg with maxDepth := scanDepth }
  let backup := scanWalk backupCfg (initialState backupCfg) dirs stopAt
  let tree := { baseTree with
    size := max baseTree.size backup.2.size
    children := backup.2.children }
  let st := { st with scanStats := { st.scanStats with
    scannedFiles := st.scanStats.scannedFiles + backup.1.scanStats.scannedFiles
    scannedBytes := st.scanStats.scannedBytes + backup.1.scanStats.scannedBytes } }
  (st, tree)

/-- Ascending insertion sort on heap pairs; sorted(l, reverse=True) is its
reverse (tuple order is total and antisymmetric, so this is exactly
Python's result). -/
def sortPairsAsc (l : List (Nat × Path)) : List (Nat × Path) :=
  l.foldr insertPair []

/-- _generate_mock_history (lines 723-738): 30 synthetic points; usage is
min(95, 40 + (i%10)*3 + (i//10)*2); size is int(base * (1 + (i%10 - 5)*0.02))
— the float truncation of a nonnegative value is the rational floor. -/
def mockHistory (baseSize : Nat) : List HistoryEntry :=
  (List.range 30).map (fun i =>
    { dayIndex := i
      usage := min 95 (40 + (i % 10) * 3 + (i / 10) * 2)
      size := (((baseSize : ℚ) * (1 + (((i % 10 : Nat) : ℚ) - 5) * 2 / 100)).floor).toNat })

/-- _post_process (lines 711-721): replace the top-files heap by its
descending sorted list, cap cleanable_files at 200, regenerate the synthetic
history from the current byte counter. -/
def postProcess (st : AnalyzerState) : AnalyzerState :=
  let st := { st with topFiles := (sortPairsAsc st.topFiles).reverse }
  let st := if 200 < st.cleanableFiles.length then
      { st with cleanableFiles := st.cleanableFiles.take 200 }
    else st
  { st with historyData := mockHistory st.scanStats.scannedBytes }

/-- One flat directory row of _build_result (lines 745-752). -/
structure FlatDir where
  path : Path
  size : Nat
  percentage : ℚ

/-- One security suggestion row (lines 768-774). -/
structure SecSuggestion where
  path : Path
  size : Nat
  securityLevel : Nat
  whitelist : Bool
  suggestion : String

/-- One row of the result's top_files list (line 790). -/
structure TopFile where
  path : Path
  size : Nat
  deriving DecidableEq

/-- The result dict.  The full result has no 'partial' and no 'error' key,
the partial result has partial=True; that optional key is the isPartial
flag, and 'error' is the error field.  scan_time (a wall-clock string) is
elided. -/
structure ScanResult where
  path : Path
  totalSize : Nat
  dirTree : TreeNode
  flatDirs : List FlatDir
  fileTypes : List (String × Nat)
  duplicateFiles : List (String × List Path)
  cleanableFiles : List CleanEntry
  securitySuggestions : List SecSuggestion
  historyData : List HistoryEntry
  diskUsage : ℚ
  topFiles : List TopFile
  scanStats : Stats
  isPartial : Bool
  error : Option String

/-- Whether the needle is an initial segment of the haystack. -/
def charsStartWith : List Char → List Char → Bool
  | [], _ => true
  | _ :: _, [] => false
  | a :: as, b :: bs => a = b && charsStartWith as bs

/-- Whether the needle occurs contiguously in the haystack. -/
def charsContain : List Char → List Char → Bool
  | [], needle => charsStartWith needle []
  | h :: t, needle => charsStartWith needle (h :: t) || charsContain t needle

/-- Substring test on strings, for the `'cache' in path_lower` style checks
of _build_result. -/
def containsSub (s sub : String) : Bool := charsContain s.toList sub.toList

/-- The path string, joined and lowercased (path.lower() of line 757). -/
def lowerPathString (p : Path) : String := (String.intercalate "/" p).toLower

/-- _get_security_suggestion (lines 837-845). -/
def getSecuritySuggestion (level : Nat) : String :=
  if level = 1 then "高风险文件，禁止删除！可能导致系统/程序异常"
  else if level = 2 then "中风险文件，建议备份后再删除，删除前确认不再需要"
  else if level = 3 then "低风险文件，可安全删除，不会影响系统运行"
  else if level = 4 then "安全文件，可放心删除，推荐立即清理"
  else "请谨慎评估后操作"

/-- The security level assignment of _build_result (lines 756-766). -/
def securityLevelOf (p : Path) : Nat :=
  let pl := lowerPathString p
  if containsSub pl "cache" || containsSub pl "temp" then 3
  else if containsSub pl "log" then 2
  else if containsSub pl "system" || containsSub pl "etc" || containsSub pl "windows" then 1
  else 4

/-- _build_result (lines 740-795). -/
def buildResult (cfg : Config) (st : AnalyzerState) (dirTree : TreeNode)
    (diskUsage : ℚ) : ScanResult :=
  let totalSize := dirTree.size
  let flatDirs := dirTree.children.map (fun d =>
    { path := d.path, size := d.size
      percentage := if 0 < totalSize then (d.size : ℚ) / (totalSize : ℚ) * 100 else 0
      : FlatDir })
  let securitySuggestions := (st.cleanableFiles.take 50).map (fun f =>
    { path := f.path, size := f.size, securityLevel := securityLevelOf f.path
      whitelist := false, suggestion := getSecuritySuggestion (securityLevelOf f.path)
      : SecSuggestion })
  { path := cfg.rootPath
    totalSize := totalSize
    dirTree := dirTree
    flatDirs := (sortByKeyDesc FlatDir.size flatDirs).take 100
    fileTypes := st.fileTypes
    duplicateFiles := st.duplicateFiles
    cleanableFiles := st.cleanableFiles.take 100
    securitySuggestions := securitySuggestions
    historyData := st.historyData
    diskUsage := diskUsage
    topFiles := (st.topFiles.take 50).map (fun sp => ⟨sp.2, sp.1⟩)
    scanStats := st.scanStats
    isPartial := false
    error := none }

/-- _create_partial_result (lines 797-819): a single-node tree sized by the
byte counter, empty flat/duplicate/security/history lists, the accumulators
as they stand (cleanable uncapped, the whole top-files heap), partial=True. -/
def createPartialResult (cfg : Config) (st : AnalyzerState) (diskUsage : ℚ) :
    ScanResult :=
  { path := cfg.rootPath
    totalSize := st.scanStats.scannedBytes
    dirTree := { path := cfg.rootPath, name := basename cfg.rootPath
                 size := st.scanStats.scannedBytes, children := [], percentage := 100 }
    flatDirs := []
    fileTypes := st.fileTypes
    duplicateFiles := []
    cleanableFiles := st.cleanableFiles
    securitySuggestions := []
    historyData := []
    diskUsage := diskUsage
    topFiles := st.topFiles.map (fun sp => ⟨sp.2, sp.1⟩)
    scanStats := st.scanStats
    isPartial := true
    error := none }

/-- _cache_valid (lines 156-161): caching on, an entry exists, and its age
(now minus its write time; the clock is monotone) is under the 600 second
TTL. -/
def cacheValid (useCache : Bool) (now : Nat) (cache : Option (Nat × ScanResult)) :
    Bool :=
  useCache && (match cache with
    | none => false
    | some (t, _) => decide (now - t < 600))

/-- The body of scan() past the cache check (lines 236-273) for the walk
strategy: run the strategy; if the stop event was observed, return the
partial result (cache untouched); else post-process, build the result and
write it through to the cache.  _load_cache / _save_cache succeed in the
model (their exception paths swallow errors). -/
def scanRun (cfg : Config) (useCache : Bool) (st : AnalyzerState)
    (cache : Option (Nat × ScanResult)) (now : Nat) (diskUsage : ℚ)
    (dirs : List WalkDir) (stopAt : Option Nat) :
    AnalyzerState × Option (Nat × ScanResult) × ScanResult :=
  let run := scanWalk cfg st dirs stopAt
  if stopAt.isSome then
    (run.1, cache, createPartialResult cfg run.1 diskUsage)
  else
    let st2 := postProcess run.1
    let result := buildResult cfg st2 run.2 diskUsage
    let cache2 := if useCache then some (now, result) else cache
    (st2, cache2, result)

/-- scan() (lines 214-279), scan_method = 'walk': a valid cache hit
short-circuits and returns the stored result (scan results are nonempty
dicts, so the `if cached:` truthiness test passes); otherwise the scan body
runs. -/
def scan (cfg : Config) (useCache : Bool) (st : AnalyzerState)
    (cache : Option (Nat × ScanResult)) (now : Nat) (diskUsage : ℚ)
    (dirs : List WalkDir) (stopAt : Option Nat) :
    AnalyzerState × Option (Nat × ScanResult) × ScanResult :=
  if cacheValid useCache now cache then
    match cache with
    | some (_, r) => (st, cache, r)
    | none => scanRun cfg useCache st cache now diskUsage dirs stopAt
  else scanRun cfg useCache st cache now diskUsage dirs stopAt

/-! ### Observers and invariant predicates used by the statements -/

/-- The total size recorded in dir_sizes away from the root key. -/
def offSum (root : Path) (m : DirMap) : Nat :=
  ((m.filter (fun e => !(decide (e.1 = root)))).map (fun e => e.2)).sum

/-- A dir_sizes map whose root entry dominates the total of all other
entries — the shape every walk-strategy dir_sizes has, since each recorded
file adds its size to the root key each time it adds it anywhere else. -/
def RootDom (root : Path) (m : DirMap) : Prop := offSum root m ≤ lookupD m root

/-- The heap-model representation invariant: the sizes are ascending along
the list (insertPair inserts by the full tuple order, which refines this),
so the head carries the minimum size, as heap[0] does. -/
def SortedHeap (h : List (Nat × Path)) : Prop :=
  h.Pairwise (fun a b => a.1 ≤ b.1)

/-- The top-files projection of a _process_batch_fast run: the fold of the
tracker step over the inserted files. -/
def topFold (limit : Nat) (h0 : List (Nat × Path)) (fs : List FileEntry) :
    List (Nat × Path) :=
  fs.foldl (fun h f => topPush h limit f.size f.path) h0

/-- The top-K tracker invariant after the files ps have been inserted into
the tracker h: the representation is sorted, the tracker holds exactly
min(capacity, inserted) entries, and an inserted file not held implies the
tracker is full and holds only sizes at least as large. -/
def TopInv (K : Nat) (ps : List FileEntry) (h : List (Nat × Path)) : Prop :=
  SortedHeap h ∧ h.length = min K ps.length ∧
    ∀ f ∈ ps, (f.size, f.path) ∉ h → h.length = K ∧ f.size ≤ topMinSize h

/-- An arbitrary sequence of _update_progress calls, applied in order. -/
def applyUpdates (st : AnalyzerState) (us : List (Nat × Nat × Option Path)) :
    AnalyzerState :=
  us.foldl (fun s u => updateProgress s u.1 u.2.1 u.2.2) st

/-! ### Concrete scenario data for witnesses and counterexamples -/

/-- A concrete configuration: root r, depth 2, no exclusions, no cleanable
patterns matching. -/
def cfgW : Config :=
  { rootPath := ["r"], maxDepth := 2
    shouldSkip := fun _ => false, classifyCleanable := fun _ => none }

/-- Run 1 of the consecutive-scan scenario: one 5-byte file at the root. -/
def dirsRunA : List WalkDir := [⟨["r"], [⟨"f1", 5, ".txt"⟩]⟩]

/-- Run 2 of the consecutive-scan scenario: one 7-byte file at the root. -/
def dirsRunB : List WalkDir := [⟨["r"], [⟨"f2", 7, ".txt"⟩]⟩]

/-- A walk over root r holding file f1 (5 bytes) directly and file f2
(3 bytes) inside subdirectory a. -/
def dirsNested : List WalkDir :=
  [⟨["r"], [⟨"f1", 5, ".txt"⟩]⟩, ⟨["r", "a"], [⟨"f2", 3, ".txt"⟩]⟩]

/-- A walk whose second step is the subdirectory a with one 5-byte file;
used with a stop request arriving after both steps were processed. -/
def dirsSub : List WalkDir := [⟨["r"], []⟩, ⟨["r", "a"], [⟨"f", 5, ".x"⟩]⟩]

/-- Two byte-identical 9000-byte files in different directories (the
analyzer never reads file contents, so only path/size/mtime enter the
model). -/
def dirsDup : List WalkDir :=
  [⟨["r", "a"], [⟨"dup", 9000, ".bin"⟩]⟩, ⟨["r", "b"], [⟨"dup", 9000, ".bin"⟩]⟩]

/-- Two find lines; a stop request arrives before the second is read. -/
def linesFind : List FindLine := [⟨["r", "a", "f1"], 5, 0⟩, ⟨["r", "b", "f2"], 7, 0⟩]

/-- dir_sizes with two equal-sized children, b inserted before a. -/
def dsTieBA : DirMap := [(["r"], 10), (["r", "b"], 5), (["r", "a"], 5)]

/-- The same entries as dsTieBA with a inserted before b. -/
def dsTieAB : DirMap := [(["r"], 10), (["r", "a"], 5), (["r", "b"], 5)]

/-- Two small files for exercising the top-K tracker. -/
def filesTopK : List FileEntry := [⟨["r", "x"], 3, ".a", 0⟩, ⟨["r", "y"], 7, ".b", 0⟩]

/-! ### Dict lemmas -/

theorem lookupD_bump {α : Type} [DecidableEq α] (m : List (α × Nat)) (k k' : α)
    (v : Nat) :
    lookupD (bump m k v) k' = lookupD m k' + if k' = k then v else 0 := by
  induction m with
  | nil =>
    simp only [bump, lookupD]
    by_cases h : k = k'
    · rw [if_pos h, if_pos h.symm]; omega
    · rw [if_neg h, if_neg (fun h2 : k' = k => h h2.symm)]
  | cons e rest ih =>
    by_cases hek : e.1 = k
    · have hb : bump (e :: rest) k v = (e.1, e.2 + v) :: rest := by
        simp [bump, hek]
      by_cases hk : e.1 = k'
      · have hkk : k' = k := hk.symm.trans hek
        simp [hb, lookupD, hk, hkk]
      · have hne : ¬ k' = k := fun h2 => hk (hek.trans h2.symm)
        simp [hb, lookupD, hk, hne]
    · have hb : bump (e :: rest) k v = e :: bump rest k v := by
        simp [bump, hek]
      by_cases hk : e.1 = k'
      · have hne : ¬ k' = k := fun h2 => hek (hk.trans h2)
        simp [hb, lookupD, hk, hne]
      · simp [hb, lookupD, hk, ih]

theorem offSum_cons (root : Path) (e : Path × Nat) (m : DirMap) :
    offSum root (e :: m) = (if e.1 = root then 0 else e.2) + offSum root m := by
  by_cases h : e.1 = root <;> simp [offSum, List.filter_cons, h]

theorem offSum_bump (root : Path) (m : DirMap) (k : Path) (v : Nat) :
    offSum root (bump m k v) = offSum root m + if k = root then 0 else v := by
  induction m with
  | nil =>
    by_cases h : k = root <;> simp [bump, offSum, List.filter_cons, h]
  | cons e rest ih =>
    by_cases hek : e.1 = k
    · have hb : bump (e :: rest) k v = (e.1, e.2 + v) :: rest := by
        simp [bump, hek]
      rw [hb, offSum_cons, offSum_cons]
      by_cases hr : e.1 = root
      · have hkr : k = root := hek.symm.trans hr
        simp [hr, hkr]
      · have hkr : ¬ k = root := fun h2 => hr (hek.trans h2)
        simp [hr, hkr]
        omega
    · have hb : bump (e :: rest) k v = e :: bump rest k v := by
        simp [bump, hek]
      rw [hb, offSum_cons, offSum_cons, ih]
      omega

theorem rootDom_bump2 (root : Path) (m : DirMap) (d : Path) (s : Nat)
    (h : RootDom root m) : RootDom root (bump (bump m d s) root s) := by
  unfold RootDom at h ⊢
  rw [offSum_bump, offSum_bump, lookupD_bump, lookupD_bump]
  by_cases hd : d = root <;> simp [hd] <;> omega

theorem rootDom_nil (root : Path) : RootDom root [] := by
  simp [RootDom, offSum, lookupD]

/-! ### RootDom is preserved by every dir_sizes writer -/

theorem processFile_dirSizes (cfg : Config) (sd : AnalyzerState × DirMap)
    (f : FileEntry) :
    (processFile cfg sd f).2 =
      bump (bump sd.2 (dirname f.path) f.size) cfg.rootPath f.size := rfl

theorem rootDom_processBatch (cfg : Config) (fs : List FileEntry) :
    ∀ st ds, RootDom cfg.rootPath ds →
      RootDom cfg.rootPath (processBatchFast cfg st ds fs).2 := by
  induction fs with
  | nil => intro st ds h; exact h
  | cons f rest ih =>
    intro st ds h
    have h2 : RootDom cfg.rootPath (processFile cfg (st, ds) f).2 := by
      rw [processFile_dirSizes]
      exact rootDom_bump2 _ _ _ _ h
    have h3 := ih (processFile cfg (st, ds) f).1 (processFile cfg (st, ds) f).2 h2
    simpa [processBatchFast, List.foldl_cons] using h3

theorem rootDom_walkFile (cfg : Config) (d : Path) (acc : WalkAcc) (f : WFile)
    (h : RootDom cfg.rootPath acc.dirSizes) :
    RootDom cfg.rootPath (walkFile cfg d acc f).dirSizes := by
  by_cases hs : cfg.shouldSkip (d ++ [f.name]) = true
  · simpa [walkFile, hs] using h
  · simp only [walkFile, hs, if_false]
    exact rootDom_bump2 _ _ _ _ h

theorem rootDom_walkFiles (cfg : Config) (d : Path) (fs : List WFile) :
    ∀ acc, RootDom cfg.rootPath acc.dirSizes →
      RootDom cfg.rootPath (fs.foldl (walkFile cfg d) acc).dirSizes := by
  induction fs with
  | nil => intro acc h; exact h
  | cons f rest ih =>
    intro acc h
    rw [List.foldl_cons]
    exact ih _ (rootDom_walkFile cfg d acc f h)

theorem rootDom_walkDir (cfg : Config) (wd : WalkDir) :
    ∀ acc, RootDom cfg.rootPath acc.dirSizes →
      RootDom cfg.rootPath (walkDir cfg acc wd).dirSizes := by
  intro acc h
  by_cases hd : cfg.maxDepth < depthOf cfg wd.dir
  · simpa [walkDir, hd] using h
  · simp only [walkDir, hd, if_false]
    exact rootDom_walkFiles cfg wd.dir wd.files _ h

theorem rootDom_walkLoop (cfg : Config) (stopAt : Option Nat)
    (dirs : List WalkDir) :
    ∀ acc i, RootDom cfg.rootPath acc.dirSizes →
      RootDom cfg.rootPath (walkLoop cfg stopAt acc dirs i).dirSizes := by
  induction dirs with
  | nil => intro acc i h; exact h
  | cons wd rest ih =>
    intro acc i h
    unfold walkLoop
    split
    · exact h
    · exact ih _ _ (rootDom_walkDir cfg wd acc h)

/-! ### The stable descending sort: permutation and sortedness -/

theorem insByKeyDesc_perm {α : Type} (key : α → Nat) (x : α) (l : List α) :
    (insByKeyDesc key x l).Perm (x :: l) := by
  induction l with
  | nil => simp [insByKeyDesc]
  | cons y ys ih =>
    by_cases h : key x ≤ key y
    · simp only [insByKeyDesc, if_pos h]
      exact (ih.cons y).trans (List.Perm.swap x y ys)
    · simp [insByKeyDesc, h]

theorem foldl_insByKeyDesc_perm {α : Type} (key : α → Nat) :
    ∀ (l acc : List α),
      (l.foldl (fun a x => insByKeyDesc key x a) acc).Perm (acc ++ l) := by
  intro l
  induction l with
  | nil => intro acc; simp
  | cons x xs ih =>
    intro acc
    rw [List.foldl_cons]
    refine ((ih (insByKeyDesc key x acc)).trans ?_)
    refine (((insByKeyDesc_perm key x acc).append_right xs).trans ?_)
    exact List.perm_middle.symm

theorem sortByKeyDesc_perm {α : Type} (key : α → Nat) (l : List α) :
    (sortByKeyDesc key l).Perm l := by
  simpa [sortByKeyDesc] using foldl_insByKeyDesc_perm key l []

theorem insByKeyDesc_pairwise {α : Type} (key : α → Nat) (x : α) (l : List α)
    (h : List.Pairwise (fun a b => key b ≤ key a) l) :
    List.Pairwise (fun a b => key b ≤ key a) (insByKeyDesc key x l) := by
  induction l with
  | nil => simp [insByKeyDesc]
  | cons y ys ih =>
    rcases List.pairwise_cons.mp h with ⟨hy, hys⟩
    by_cases hle : key x ≤ key y
    · simp only [insByKeyDesc, if_pos hle]
      refine List.pairwise_cons.mpr ⟨?_, ih hys⟩
      intro z hz
      have hz2 := (insByKeyDesc_perm key x ys).mem_iff.mp hz
      rcases List.mem_cons.mp hz2 with rfl | hzys
      · exact hle
      · exact hy z hzys
    · have hlt : key y < key x := Nat.lt_of_not_le hle
      simp only [insByKeyDesc, if_neg hle]
      refine List.pairwise_cons.mpr ⟨?_, h⟩
      intro z hz
      rcases List.mem_cons.mp hz with rfl | hzys
      · exact le_of_lt hlt
      · exact le_trans (hy z hzys) (le_of_lt hlt)

theorem sortByKeyDesc_pairwise {α : Type} (key : α → Nat) (l : List α) :
    List.Pairwise (fun a b => key b ≤ key a) (sortByKeyDesc key l) := by
  suffices h : ∀ (l2 acc : List α), List.Pairwise (fun a b => key b ≤ key a) acc →
      List.Pairwise (fun a b => key b ≤ key a)
        (l2.foldl (fun a x => insByKeyDesc key x a) acc) by
    exact h l [] List.Pairwise.nil
  intro l2
  induction l2 with
  | nil => intro acc h; exact h
  | cons x xs ih =>
    intro acc h
    rw [List.foldl_cons]
    exact ih _ (insByKeyDesc_pairwise key x acc h)

/-! ### Sum comparison lemmas -/

theorem sum_take_le (n : Nat) (l : List Nat) : (l.take n).sum ≤ l.sum := by
  induction l generalizing n with
  | nil => simp
  | cons a t ih =>
    cases n with
    | zero => simp
    | succ m =>
      simp only [List.take_succ_cons, List.sum_cons]
      exact Nat.add_le_add_left (ih m) a

theorem sum_map_take_le {α : Type} (g : α → Nat) (n : Nat) (l : List α) :
    ((l.take n).map g).sum ≤ (l.map g).sum := by
  rw [List.map_take]
  exact sum_take_le n (l.map g)

theorem sum_filter_mono {α : Type} (g : α → Nat) (p q : α → Bool)
    (himp : ∀ x, p x = true → q x = true) (l : List α) :
    ((l.filter p).map g).sum ≤ ((l.filter q).map g).sum := by
  induction l with
  | nil => simp
  | cons x t ih =>
    rw [List.filter_cons, List.filter_cons]
    by_cases hp : p x = true
    · simp only [hp, if_pos, himp x hp, List.map_cons, List.sum_cons]
      exact Nat.add_le_add_left ih (g x)
    · by_cases hq : q x = true
      · simp only [hp, hq, if_pos, if_neg, Bool.false_eq_true, List.map_cons,
          List.sum_cons]
        exact le_trans ih (Nat.le_add_left _ _)
      · simp only [hp, hq, Bool.false_eq_true, if_neg]
        exact ih

/-! ### Shape of the tree built by the aggregator -/

theorem buildTree_children_sum_le (root : Path) (ds : DirMap)
    (h : RootDom root ds) :
    ((buildTreeFromDirs root ds).children.map TreeNode.size).sum ≤
      (buildTreeFromDirs root ds).size := by
  cases ds with
  | nil => simp [buildTreeFromDirs]
  | cons e0 rest =>
    simp only [buildTreeFromDirs, List.map_map]
    have hcomp : (TreeNode.size ∘ fun e : Path × Nat =>
        ({ path := e.1, name := basename e.1, size := e.2, children := []
           percentage := if 0 < lookupD (e0 :: rest) root then
             (e.2 : ℚ) / (lookupD (e0 :: rest) root : ℚ) * 100 else 0 } : TreeNode))
        = fun e : Path × Nat => e.2 := rfl
    rw [hcomp]
    refine le_trans (sum_map_take_le _ 100 _) ?_
    have hperm := (sortByKeyDesc_perm (fun e : Path × Nat => e.2)
      ((e0 :: rest).filter (fun e =>
        !(decide (e.1 = root)) && decide (dirname e.1 = root)))).map
      (fun e : Path × Nat => e.2)
    rw [hperm.sum_eq]
    refine le_trans (sum_filter_mono (fun e : Path × Nat => e.2) _ _
      (fun x hx => ?_) (e0 :: rest)) h
    rcases (Bool.and_eq_true _ _).mp hx with ⟨h1, _⟩
    exact h1

theorem buildTree_child_shape (root : Path) (ds : DirMap) (c : TreeNode)
    (hc : c ∈ (buildTreeFromDirs root ds).children) :
    c.children = [] ∧ ∃ e : Path × Nat, e ∈ ds ∧ ¬ e.1 = root ∧ c.size = e.2 ∧
      c.percentage = (if 0 < lookupD ds root then
        (e.2 : ℚ) / (lookupD ds root : ℚ) * 100 else 0) := by
  cases ds with
  | nil => simp [buildTreeFromDirs] at hc
  | cons e0 rest =>
    simp only [buildTreeFromDirs] at hc
    rcases List.mem_map.mp hc with ⟨a, ha, rfl⟩
    refine ⟨rfl, a, ?_, ?_, rfl, rfl⟩
    · have h1 := List.mem_of_mem_take ha
      have h2 := (sortByKeyDesc_perm (fun e : Path × Nat => e.2) _).mem_iff.mp h1
      exact (List.mem_filter.mp h2).1
    · have h1 := List.mem_of_mem_take ha
      have h2 := (sortByKeyDesc_perm (fun e : Path × Nat => e.2) _).mem_iff.mp h1
      have h3 := (List.mem_filter.mp h2).2
      rcases (Bool.and_eq_true _ _).mp h3 with ⟨h4, _⟩
      intro heq
      simp [heq] at h4

theorem entry_le_root (root : Path) (ds : DirMap) (h : RootDom root ds)
    (e : Path × Nat) (he : e ∈ ds) (hne : ¬ e.1 = root) :
    e.2 ≤ lookupD ds root := by
  refine le_trans ?_ h
  have hmem : e.2 ∈ (ds.filter (fun x => !(decide (x.1 = root)))).map
      (fun x => x.2) :=
    List.mem_map.mpr ⟨e, List.mem_filter.mpr ⟨he, by simp [hne]⟩, rfl⟩
  exact List.single_le_sum (fun _ _ => Nat.zero_le _) _ hmem

theorem percentage_in_range (sz rootSz : Nat) (hle : sz ≤ rootSz) :
    0 ≤ (if 0 < rootSz then (sz : ℚ) / (rootSz : ℚ) * 100 else 0) ∧
      (if 0 < rootSz then (sz : ℚ) / (rootSz : ℚ) * 100 else 0) ≤ 100 := by
  by_cases hpos : 0 < rootSz
  · have h1 : (sz : ℚ) ≤ (rootSz : ℚ) := by exact_mod_cast hle
    have h2 : (0 : ℚ) < (rootSz : ℚ) := by exact_mod_cast hpos
    constructor
    · rw [if_pos hpos]
      positivity
    · rw [if_pos hpos, div_mul_eq_mul_div, div_le_iff₀ h2]
      nlinarith
  · simp [hpos]

/-! ### Heap-model lemmas -/

theorem pairLe_size {x y : Nat × Path} (h : pairLe x y = true) : x.1 ≤ y.1 := by
  unfold pairLe at h
  by_cases h1 : x.1 < y.1
  · exact le_of_lt h1
  · by_cases h2 : y.1 < x.1
    · simp [h1, h2] at h
    · omega

theorem size_le_of_not_pairLe {x y : Nat × Path} (h : ¬ pairLe x y = true) :
    y.1 ≤ x.1 := by
  unfold pairLe at h
  by_cases h1 : x.1 < y.1
  · simp [h1] at h
  · omega

theorem insertPair_mem (a x : Nat × Path) (l : List (Nat × Path)) :
    a ∈ insertPair x l ↔ a = x ∨ a ∈ l := by
  induction l with
  | nil => simp [insertPair]
  | cons y ys ih =>
    by_cases h : pairLe x y = true
    · simp [insertPair, h]
    · simp [insertPair, h, ih]
      tauto

theorem insertPair_length (x : Nat × Path) (l : List (Nat × Path)) :
    (insertPair x l).length = l.length + 1 := by
  induction l with
  | nil => simp [insertPair]
  | cons y ys ih =>
    by_cases h : pairLe x y = true <;> simp [insertPair, h, ih]

theorem insertPair_sorted (x : Nat × Path) (l : List (Nat × Path))
    (h : SortedHeap l) : SortedHeap (insertPair x l) := by
  induction l with
  | nil => simp [insertPair, SortedHeap]
  | cons y ys ih =>
    rcases List.pairwise_cons.mp h with ⟨hy, hys⟩
    by_cases hle : pairLe x y = true
    · simp only [insertPair, if_pos hle]
      refine List.pairwise_cons.mpr ⟨?_, h⟩
      intro z hz
      rcases List.mem_cons.mp hz with rfl | hzys
      · exact pairLe_size hle
      · exact le_trans (pairLe_size hle) (hy z hzys)
    · simp only [insertPair, if_neg hle]
      refine List.pairwise_cons.mpr ⟨?_, ih hys⟩
      intro z hz
      rcases (insertPair_mem z x ys).mp hz with rfl | hzys
      · exact size_le_of_not_pairLe hle
      · exact hy z hzys

theorem sortedHeap_head_le (l : List (Nat × Path)) (h : SortedHeap l) :
    ∀ z ∈ l, topMinSize l ≤ z.1 := by
  cases l with
  | nil => intro z hz; simp at hz
  | cons y ys =>
    intro z hz
    rcases List.mem_cons.mp hz with rfl | hzys
    · exact le_refl _
    · exact (List.pairwise_cons.mp h).1 z hzys

theorem topMinSize_insertPair_ge (x : Nat × Path) (l : List (Nat × Path))
    (b : Nat) (hx : b ≤ x.1) (hl : ∀ z ∈ l, b ≤ z.1) :
    b ≤ topMinSize (insertPair x l) := by
  cases l with
  | nil => simpa [insertPair, topMinSize] using hx
  | cons y ys =>
    by_cases hle : pairLe x y = true
    · simpa [insertPair, hle, topMinSize] using hx
    · simpa [insertPair, hle, topMinSize] using hl y (List.mem_cons_self y ys)

theorem topInv_nil (K : Nat) : TopInv K [] [] := by
  refine ⟨List.Pairwise.nil, by simp, by simp⟩

theorem topPush_inv (K : Nat) (hK : 0 < K) (ps : List FileEntry) (f : FileEntry)
    (h : List (Nat × Path)) (inv : TopInv K ps h) :
    TopInv K (ps ++ [f]) (topPush h K f.size f.path) := by
  obtain ⟨hs, hlen, hbound⟩ := inv
  by_cases hcap : h.length < K
  · simp only [topPush, if_pos hcap]
    refine ⟨insertPair_sorted _ _ hs, ?_, ?_⟩
    · rw [insertPair_length, List.length_append]
      simp only [List.length_cons, List.length_nil]
      omega
    · intro g hg hnot
      rw [insertPair_mem] at hnot
      push_neg at hnot
      obtain ⟨hne, hnotin⟩ := hnot
      rcases List.mem_append.mp hg with hgps | hgf
      · rcases hbound g hgps hnotin with ⟨hK2, _⟩
        omega
      · rw [List.mem_singleton] at hgf
        subst hgf
        exact absurd rfl hne
  · have hlenK : h.length = K := by omega
    by_cases hrep : topMinSize h < f.size
    · simp only [topPush, if_neg hcap, if_pos hrep]
      cases h with
      | nil =>
        exfalso
        simp at hlenK
        omega
      | cons hd tl =>
        rcases List.pairwise_cons.mp hs with ⟨hhd, htl⟩
        have hmin : topMinSize (hd :: tl) = hd.1 := rfl
        rw [hmin] at hrep
        simp only [List.tail_cons]
        have hge : hd.1 ≤ topMinSize (insertPair (f.size, f.path) tl) :=
          topMinSize_insertPair_ge _ _ hd.1 (le_of_lt hrep) hhd
        refine ⟨insertPair_sorted _ _ htl, ?_, ?_⟩
        · rw [insertPair_length, List.length_append]
          simp only [List.length_cons, List.length_nil] at hlenK ⊢
          omega
        · intro g hg hnot
          refine ⟨by rw [insertPair_length]; simp at hlenK; omega, ?_⟩
          rcases List.mem_append.mp hg with hgps | hgf
          · by_cases hin : (g.size, g.path) ∈ (hd :: tl)
            · rcases List.mem_cons.mp hin with heq | hintl
              · have hgsz : g.size = hd.1 := congrArg Prod.fst heq
                rw [hgsz]
                exact hge
              · exact absurd ((insertPair_mem _ _ _).mpr (Or.inr hintl)) hnot
            · rcases hbound g hgps hin with ⟨_, hle⟩
              rw [hmin] at hle
              exact le_trans hle hge
          · rw [List.mem_singleton] at hgf
            subst hgf
            exact absurd ((insertPair_mem _ _ _).mpr (Or.inl rfl)) hnot
    · simp only [topPush, if_neg hcap, if_neg hrep]
      refine ⟨hs, ?_, ?_⟩
      · rw [List.length_append]
        simp only [List.length_cons, List.length_nil]
        omega
      · intro g hg hnot
        rcases List.mem_append.mp hg with hgps | hgf
        · exact hbound g hgps hnot
        · rw [List.mem_singleton] at hgf
          subst hgf
          exact ⟨hlenK, by omega⟩

theorem topFold_inv (K : Nat) (hK : 0 < K) :
    ∀ (fs ps : List FileEntry) (h : List (Nat × Path)), TopInv K ps h →
      TopInv K (ps ++ fs) (topFold K h fs) := by
  intro fs
  induction fs with
  | nil => intro ps h inv; simpa [topFold] using inv
  | cons f rest ih =>
    intro ps h inv
    have step := topPush_inv K hK ps f h inv
    have h2 := ih (ps ++ [f]) _ step
    simpa [topFold, List.foldl_cons, List.append_assoc] using h2

theorem processFile_topFiles (cfg : Config) (sd : AnalyzerState × DirMap)
    (f : FileEntry) :
    (processFile cfg sd f).1.topFiles = topPush sd.1.topFiles topNLimit f.size f.path := by
  simp only [processFile]
  cases hcf : cfg.classifyCleanable f.path <;> simp [identifyCleanable, hcf]

theorem processBatchFast_topFiles (cfg : Config) (fs : List FileEntry) :
    ∀ (st : AnalyzerState) (ds : DirMap),
      (processBatchFast cfg st ds fs).1.topFiles = topFold topNLimit st.topFiles fs := by
  induction fs with
  | nil => intro st ds; rfl
  | cons f rest ih =>
    intro st ds
    have h1 := ih (processFile cfg (st, ds) f).1 (processFile cfg (st, ds) f).2
    have h2 : processBatchFast cfg st ds (f :: rest) =
        processBatchFast cfg (processFile cfg (st, ds) f).1
          (processFile cfg (st, ds) f).2 rest := by
      simp [processBatchFast, List.foldl_cons]
    rw [h2, h1, processFile_topFiles]
    rfl

/-! ### Exact progress accounting of the walk strategy -/

theorem walkFile_count (cfg : Config) (d : Path) (acc : WalkAcc) (f : WFile) :
    (walkFile cfg d acc f).st.scanStats.scannedFiles + acc.allFiles.length
        = acc.st.scanStats.scannedFiles + (walkFile cfg d acc f).allFiles.length
    ∧ (walkFile cfg d acc f).st.scanStats.scannedBytes
          + (acc.allFiles.map FileEntry.size).sum
        = acc.st.scanStats.scannedBytes
          + ((walkFile cfg d acc f).allFiles.map FileEntry.size).sum := by
  by_cases hs : cfg.shouldSkip (d ++ [f.name]) = true
  · simp [walkFile, hs]
  · simp [walkFile, hs, updateProgress, List.length_append, List.map_append,
      List.sum_append]
    constructor <;> omega

theorem walkFiles_count (cfg : Config) (d : Path) (fs : List WFile) :
    ∀ acc : WalkAcc,
      (fs.foldl (walkFile cfg d) acc).st.scanStats.scannedFiles + acc.allFiles.length
          = acc.st.scanStats.scannedFiles + (fs.foldl (walkFile cfg d) acc).allFiles.length
      ∧ (fs.foldl (walkFile cfg d) acc).st.scanStats.scannedBytes
            + (acc.allFiles.map FileEntry.size).sum
          = acc.st.scanStats.scannedBytes
            + ((fs.foldl (walkFile cfg d) acc).allFiles.map FileEntry.size).sum := by
  induction fs with
  | nil => intro acc; exact ⟨rfl, rfl⟩
  | cons f rest ih =>
    intro acc
    rw [List.foldl_cons]
    obtain ⟨h1, h2⟩ := walkFile_count cfg d acc f
    obtain ⟨h3, h4⟩ := ih (walkFile cfg d acc f)
    exact ⟨by omega, by omega⟩

theorem walkDir_count (cfg : Config) (acc : WalkAcc) (wd : WalkDir) :
    (walkDir cfg acc wd).st.scanStats.scannedFiles + acc.allFiles.length
        = acc.st.scanStats.scannedFiles + (walkDir cfg acc wd).allFiles.length
    ∧ (walkDir cfg acc wd).st.scanStats.scannedBytes
          + (acc.allFiles.map FileEntry.size).sum
        = acc.st.scanStats.scannedBytes
          + ((walkDir cfg acc wd).allFiles.map FileEntry.size).sum := by
  by_cases hd : cfg.maxDepth < depthOf cfg wd.dir
  · simp [walkDir, hd, updateProgress]
  · simp only [walkDir, hd, if_false, updateProgress]
    obtain ⟨h1, h2⟩ := walkFiles_count cfg wd.dir wd.files
      { acc with st := updateProgress acc.st 0 0 (some wd.dir) }
    simp only [updateProgress] at h1 h2
    exact ⟨by omega, by omega⟩

theorem walkLoop_count (cfg : Config) (stopAt : Option Nat) (dirs : List WalkDir) :
    ∀ (acc : WalkAcc) (i : Nat),
      (walkLoop cfg stopAt acc dirs i).st.scanStats.scannedFiles + acc.allFiles.length
          = acc.st.scanStats.scannedFiles
            + (walkLoop cfg stopAt acc dirs i).allFiles.length
      ∧ (walkLoop cfg stopAt acc dirs i).st.scanStats.scannedBytes
            + (acc.allFiles.map FileEntry.size).sum
          = acc.st.scanStats.scannedBytes
            + ((walkLoop cfg stopAt acc dirs i).allFiles.map FileEntry.size).sum := by
  induction dirs with
  | nil => intro acc i; exact ⟨rfl, rfl⟩
  | cons wd rest ih =>
    intro acc i
    unfold walkLoop
    split
    · exact ⟨rfl, rfl⟩
    · obtain ⟨h1, h2⟩ := walkDir_count cfg acc wd
      obtain ⟨h3, h4⟩ := ih (walkDir cfg acc wd) (i + 1)
      exact ⟨by omega, by omega⟩

/-! ### The files a walk records do not depend on the incoming state -/

theorem walkFile_indep (cfg : Config) (d : Path) (f : WFile)
    (st1 st2 : AnalyzerState) (ds : DirMap) (fs : List FileEntry) :
    (walkFile cfg d ⟨st1, ds, fs⟩ f).dirSizes
        = (walkFile cfg d ⟨st2, ds, fs⟩ f).dirSizes
    ∧ (walkFile cfg d ⟨st1, ds, fs⟩ f).allFiles
        = (walkFile cfg d ⟨st2, ds, fs⟩ f).allFiles := by
  by_cases hs : cfg.shouldSkip (d ++ [f.name]) = true <;> simp [walkFile, hs]

theorem walkFiles_indep (cfg : Config) (d : Path) (fsL : List WFile) :
    ∀ (st1 st2 : AnalyzerState) (ds : DirMap) (fs : List FileEntry),
      (fsL.foldl (walkFile cfg d) ⟨st1, ds, fs⟩).dirSizes
          = (fsL.foldl (walkFile cfg d) ⟨st2, ds, fs⟩).dirSizes
      ∧ (fsL.foldl (walkFile cfg d) ⟨st1, ds, fs⟩).allFiles
          = (fsL.foldl (walkFile cfg d) ⟨st2, ds, fs⟩).allFiles := by
  induction fsL with
  | nil => intro st1 st2 ds fs; exact ⟨rfl, rfl⟩
  | cons f rest ih =>
    intro st1 st2 ds fs
    obtain ⟨hds, hfs⟩ := walkFile_indep cfg d f st1 st2 ds fs
    rw [List.foldl_cons, List.foldl_cons]
    have e2 : walkFile cfg d ⟨st2, ds, fs⟩ f =
        ⟨(walkFile cfg d ⟨st2, ds, fs⟩ f).st,
         (walkFile cfg d ⟨st1, ds, fs⟩ f).dirSizes,
         (walkFile cfg d ⟨st1, ds, fs⟩ f).allFiles⟩ := by
      rw [hds, hfs]
    have e1 : walkFile cfg d ⟨st1, ds, fs⟩ f =
        ⟨(walkFile cfg d ⟨st1, ds, fs⟩ f).st,
         (walkFile cfg d ⟨st1, ds, fs⟩ f).dirSizes,
         (walkFile cfg d ⟨st1, ds, fs⟩ f).allFiles⟩ := rfl
    rw [e2, e1]
    exact ih _ _ _ _

theorem walkDir_indep (cfg : Config) (wd : WalkDir)
    (st1 st2 : AnalyzerState) (ds : DirMap) (fs : List FileEntry) :
    (walkDir cfg ⟨st1, ds, fs⟩ wd).dirSizes = (walkDir cfg ⟨st2, ds, fs⟩ wd).dirSizes
    ∧ (walkDir cfg ⟨st1, ds, fs⟩ wd).allFiles = (walkDir cfg ⟨st2, ds, fs⟩ wd).allFiles := by
  by_cases hd : cfg.maxDepth < depthOf cfg wd.dir
  · simp [walkDir, hd]
  · simp only [walkDir, hd, if_false]
    exact walkFiles_indep cfg wd.dir wd.files _ _ ds fs

theorem walkLoop_indep (cfg : Config) (stopAt : Option Nat) (dirs : List WalkDir) :
    ∀ (i : Nat) (st1 st2 : AnalyzerState) (ds : DirMap) (fs : List FileEntry),
      (walkLoop cfg stopAt ⟨st1, ds, fs⟩ dirs i).dirSizes
          = (walkLoop cfg stopAt ⟨st2, ds, fs⟩ dirs i).dirSizes
      ∧ (walkLoop cfg stopAt ⟨st1, ds, fs⟩ dirs i).allFiles
          = (walkLoop cfg stopAt ⟨st2, ds, fs⟩ dirs i).allFiles := by
  induction dirs with
  | nil => intro i st1 st2 ds fs; exact ⟨rfl, rfl⟩
  | cons wd rest ih =>
    intro i st1 st2 ds fs
    unfold walkLoop
    split
    · exact ⟨rfl, rfl⟩
    · obtain ⟨hds, hfs⟩ := walkDir_indep cfg wd st1 st2 ds fs
      have e2 : walkDir cfg ⟨st2, ds, fs⟩ wd =
          ⟨(walkDir cfg ⟨st2, ds, fs⟩ wd).st,
           (walkDir cfg ⟨st1, ds, fs⟩ wd).dirSizes,
           (walkDir cfg ⟨st1, ds, fs⟩ wd).allFiles⟩ := by
        rw [hds, hfs]
      have e1 : walkDir cfg ⟨st1, ds, fs⟩ wd =
          ⟨(walkDir cfg ⟨st1, ds, fs⟩ wd).st,
           (walkDir cfg ⟨st1, ds, fs⟩ wd).dirSizes,
           (walkDir cfg ⟨st1, ds, fs⟩ wd).allFiles⟩ := rfl
      rw [e2, e1]
      exact ih _ _ _ _ _

/-! ### Field-preservation lemmas -/

theorem processFile_stats (cfg : Config) (sd : AnalyzerState × DirMap) (f : FileEntry) :
    (processFile cfg sd f).1.scanStats = sd.1.scanStats := by
  simp only [processFile]
  cases hcf : cfg.classifyCleanable f.path <;> simp [identifyCleanable, hcf]

theorem processFile_dup (cfg : Config) (sd : AnalyzerState × DirMap) (f : FileEntry) :
    (processFile cfg sd f).1.duplicateFiles = sd.1.duplicateFiles := by
  simp only [processFile]
  cases hcf : cfg.classifyCleanable f.path <;> simp [identifyCleanable, hcf]

theorem processBatchFast_stats (cfg : Config) (fs : List FileEntry) :
    ∀ (st : AnalyzerState) (ds : DirMap),
      (processBatchFast cfg st ds fs).1.scanStats = st.scanStats := by
  induction fs with
  | nil => intro st ds; rfl
  | cons f rest ih =>
    intro st ds
    have h2 : processBatchFast cfg st ds (f :: rest) =
        processBatchFast cfg (processFile cfg (st, ds) f).1
          (processFile cfg (st, ds) f).2 rest := by
      simp [processBatchFast, List.foldl_cons]
    rw [h2, ih, processFile_stats]

theorem processBatchFast_dup (cfg : Config) (fs : List FileEntry) :
    ∀ (st : AnalyzerState) (ds : DirMap),
      (processBatchFast cfg st ds fs).1.duplicateFiles = st.duplicateFiles := by
  induction fs with
  | nil => intro st ds; rfl
  | cons f rest ih =>
    intro st ds
    have h2 : processBatchFast cfg st ds (f :: rest) =
        processBatchFast cfg (processFile cfg (st, ds) f).1
          (processFile cfg (st, ds) f).2 rest := by
      simp [processBatchFast, List.foldl_cons]
    rw [h2, ih, processFile_dup]

theorem walkFile_dup (cfg : Config) (d : Path) (acc : WalkAcc) (f : WFile) :
    (walkFile cfg d acc f).st.duplicateFiles = acc.st.duplicateFiles := by
  by_cases hs : cfg.shouldSkip (d ++ [f.name]) = true <;>
    simp [walkFile, hs, updateProgress]

theorem walkFiles_dup (cfg : Config) (d : Path) (fs : List WFile) :
    ∀ acc : WalkAcc,
      (fs.foldl (walkFile cfg d) acc).st.duplicateFiles = acc.st.duplicateFiles := by
  induction fs with
  | nil => intro acc; rfl
  | cons f rest ih =>
    intro acc
    rw [List.foldl_cons, ih, walkFile_dup]

theorem walkDir_dup (cfg : Config) (acc : WalkAcc) (wd : WalkDir) :
    (walkDir cfg acc wd).st.duplicateFiles = acc.st.duplicateFiles := by
  by_cases hd : cfg.maxDepth < depthOf cfg wd.dir
  · simp [walkDir, hd, updateProgress]
  · simp only [walkDir, hd, if_false]
    rw [walkFiles_dup]
    simp [updateProgress]

theorem walkLoop_dup (cfg : Config) (stopAt : Option Nat) (dirs : List WalkDir) :
    ∀ (acc : WalkAcc) (i : Nat),
      (walkLoop cfg stopAt acc dirs i).st.duplicateFiles = acc.st.duplicateFiles := by
  induction dirs with
  | nil => intro acc i; rfl
  | cons wd rest ih =>
    intro acc i
    unfold walkLoop
    split
    · rfl
    · rw [ih, walkDir_dup]

theorem scanWalk_dup (cfg : Config) (st : AnalyzerState) (dirs : List WalkDir)
    (stopAt : Option Nat) :
    (scanWalk cfg st dirs stopAt).1.duplicateFiles = st.duplicateFiles := by
  simp only [scanWalk]
  rw [processBatchFast_dup, walkLoop_dup]

theorem postProcess_stats (st : AnalyzerState) :
    (postProcess st).scanStats = st.scanStats := by
  simp only [postProcess]
  split <;> rfl

theorem postProcess_dup (st : AnalyzerState) :
    (postProcess st).duplicateFiles = st.duplicateFiles := by
  simp only [postProcess]
  split <;> rfl

theorem scanWalk_stats (cfg : Config) (st : AnalyzerState) (dirs : List WalkDir)
    (stopAt : Option Nat) :
    (scanWalk cfg st dirs stopAt).1.scanStats.scannedFiles
        = st.scanStats.scannedFiles + (walkAllFiles cfg dirs stopAt).length
    ∧ (scanWalk cfg st dirs stopAt).1.scanStats.scannedBytes
        = st.scanStats.scannedBytes
          + ((walkAllFiles cfg dirs stopAt).map FileEntry.size).sum := by
  obtain ⟨h1, h2⟩ := walkLoop_count cfg stopAt dirs ⟨st, [], []⟩ 0
  obtain ⟨_, hfs⟩ := walkLoop_indep cfg stopAt dirs 0 st (initialState cfg) [] []
  simp only [scanWalk, processBatchFast_stats]
  rw [walkAllFiles, ← hfs]
  simp only [List.length_nil, List.map_nil, List.sum_nil, Nat.add_zero] at h1 h2
  exact ⟨h1, h2⟩

/-! ### Exact batch accounting of the find strategy -/

theorem findFile_skip (cfg : Config) (acc : FindAcc) (l : FindLine)
    (hs : cfg.shouldSkip l.path = true) : findFile cfg acc l = acc := by
  simp [findFile, hs]

theorem findLoop_spec (cfg : Config) (stopAt : Option Nat) (baseF baseB : Nat) :
    ∀ (lines : List FindLine) (i : Nat) (acc : FindAcc) (P : List FindLine),
      acc.count = P.length →
      acc.batch = (P.drop (findBatchSize * (P.length / findBatchSize))).map findEntry →
      acc.st.scanStats.scannedFiles
          = baseF + findBatchSize * (P.length / findBatchSize) →
      acc.st.scanStats.scannedBytes
          = baseB + ((P.take (findBatchSize * (P.length / findBatchSize))).map
              FindLine.size).sum →
      (findLoop cfg stopAt acc lines i).count
          = (P ++ findRecorded cfg stopAt lines i).length
      ∧ (findLoop cfg stopAt acc lines i).batch
          = ((P ++ findRecorded cfg stopAt lines i).drop
              (findBatchSize * ((P ++ findRecorded cfg stopAt lines i).length
                / findBatchSize))).map findEntry
      ∧ (findLoop cfg stopAt acc lines i).st.scanStats.scannedFiles
          = baseF + findBatchSize
              * ((P ++ findRecorded cfg stopAt lines i).length / findBatchSize)
      ∧ (findLoop cfg stopAt acc lines i).st.scanStats.scannedBytes
          = baseB + (((P ++ findRecorded cfg stopAt lines i).take
              (findBatchSize * ((P ++ findRecorded cfg stopAt lines i).length
                / findBatchSize))).map FindLine.size).sum := by
  intro lines
  induction lines with
  | nil =>
    intro i acc P h1 h2 h3 h4
    simp only [findLoop, findRecorded, List.append_nil]
    exact ⟨h1, h2, h3, h4⟩
  | cons l rest ih =>
    intro i acc P h1 h2 h3 h4
    by_cases hstop : stopSet stopAt i = true
    · simp only [findLoop, findRecorded, hstop, if_true, List.append_nil]
      exact ⟨h1, h2, h3, h4⟩
    · have hloop : findLoop cfg stopAt acc (l :: rest) i
          = findLoop cfg stopAt (findFile cfg acc l) rest (i + 1) := by
        simp [findLoop, hstop]
      by_cases hskip : cfg.shouldSkip l.path = true
      · have hrec : findRecorded cfg stopAt (l :: rest) i
            = findRecorded cfg stopAt rest (i + 1) := by
          simp [findRecorded, hstop, hskip]
        rw [hloop, hrec, findFile_skip cfg acc l hskip]
        exact ih (i + 1) acc P h1 h2 h3 h4
      · have hrec : findRecorded cfg stopAt (l :: rest) i
            = l :: findRecorded cfg stopAt rest (i + 1) := by
          simp [findRecorded, hstop, hskip]
        have hBS : findBatchSize = 1000 := rfl
        have hkle : findBatchSize * (P.length / findBatchSize) ≤ P.length := by
          rw [hBS]; omega
        have hassoc : P ++ l :: findRecorded cfg stopAt rest (i + 1)
            = (P ++ [l]) ++ findRecorded cfg stopAt rest (i + 1) := by
          simp
        rw [hloop, hrec, hassoc]
        by_cases hmod : (P.length + 1) % findBatchSize = 0
        · -- the new file completes a batch: flush
          have hk2 : findBatchSize * ((P.length + 1) / findBatchSize)
              = P.length + 1 := by rw [hBS] at hmod ⊢; omega
          have hff : findFile cfg acc l =
              { st := (processBatchFast cfg
                  (updateProgress acc.st findBatchSize
                    (((acc.batch ++ [findEntry l]).map FileEntry.size).sum)
                    (some l.path))
                  acc.dirSizes (acc.batch ++ [findEntry l])).1
                dirSizes := (processBatchFast cfg
                  (updateProgress acc.st findBatchSize
                    (((acc.batch ++ [findEntry l]).map FileEntry.size).sum)
                    (some l.path))
                  acc.dirSizes (acc.batch ++ [findEntry l])).2
                batch := []
                count := acc.count + 1 } := by
            simp [findFile, hskip, h1, hmod]
          refine ih (i + 1) _ (P ++ [l]) ?_ ?_ ?_ ?_
          · rw [hff]; simp [h1]
          · rw [hff]
            simp only [List.length_append, List.length_cons, List.length_nil]
            rw [hk2]
            simp
          · rw [hff]
            simp only [processBatchFast_stats, updateProgress]
            simp only [List.length_append, List.length_cons, List.length_nil, hk2]
            rw [h3, hBS] at *
            rw [hBS] at hmod
            omega
          · rw [hff]
            simp only [processBatchFast_stats, updateProgress]
            simp only [List.length_append, List.length_cons, List.length_nil, hk2]
            have htk : (P ++ [l]).take (P.length + 1) = P ++ [l] := by
              rw [List.take_of_length_le]; simp
            rw [htk, h4, h2]
            have hsplit : ((P.take (findBatchSize * (P.length / findBatchSize))).map
                  FindLine.size).sum
                + ((P.drop (findBatchSize * (P.length / findBatchSize))).map
                  FindLine.size).sum
                = (P.map FindLine.size).sum := by
              rw [← List.sum_append, ← List.map_append, List.take_append_drop]
            have hmapm : ((P.drop (findBatchSize * (P.length / findBatchSize))).map
                  findEntry).map FileEntry.size
                = (P.drop (findBatchSize * (P.length / findBatchSize))).map
                  FindLine.size := by
              rw [List.map_map]; rfl
            rw [List.map_append, List.sum_append, hmapm]
            simp only [List.map_append, List.sum_append, List.map_cons,
              List.map_nil, List.sum_cons, List.sum_nil]
            have hone : FileEntry.size (findEntry l) = l.size := rfl
            simp only [hone, Nat.add_zero]
            omega
        · -- no flush: the file joins the pending batch
          have hk2 : (P.length + 1) / findBatchSize = P.length / findBatchSize := by
            rw [hBS] at hmod ⊢; omega
          have hff : findFile cfg acc l =
              { acc with batch := acc.batch ++ [findEntry l]
                         count := acc.count + 1 } := by
            simp [findFile, hskip, h1, hmod]
          refine ih (i + 1) _ (P ++ [l]) ?_ ?_ ?_ ?_
          · rw [hff]; simp [h1]
          · rw [hff]
            simp only [List.length_append, List.length_cons, List.length_nil, hk2]
            rw [List.drop_append_of_le_length hkle, h2]
            simp
          · rw [hff]
            simp only [List.length_append, List.length_cons, List.length_nil, hk2]
            exact h3
          · rw [hff]
            simp only [List.length_append, List.length_cons, List.length_nil, hk2]
            rw [List.take_append_of_le_length hkle]
            exact h4

theorem scanFastFind_stats (cfg : Config) (st : AnalyzerState)
    (lines : List FindLine) (stopAt : Option Nat) :
    (scanFastFind cfg st lines stopAt).1.scanStats.scannedFiles
        = st.scanStats.scannedFiles + findBatchSize
            * ((findRecorded cfg stopAt lines 0).length / findBatchSize)
    ∧ (scanFastFind cfg st lines stopAt).1.scanStats.scannedBytes
        = st.scanStats.scannedBytes
          + (((findRecorded cfg stopAt lines 0).take
              (findBatchSize * ((findRecorded cfg stopAt lines 0).length
                / findBatchSize))).map FindLine.size).sum := by
  obtain ⟨_, _, h3, h4⟩ := findLoop_spec cfg stopAt
    st.scanStats.scannedFiles st.scanStats.scannedBytes lines 0
    ⟨st, [], [], 0⟩ [] rfl (by simp) (by simp) (by simp)
  simp only [List.nil_append] at h3 h4
  simp only [scanFastFind]
  split
  · exact ⟨h3, h4⟩
  · simp only [processBatchFast_stats]
    exact ⟨h3, h4⟩

/-! ### Claim theorems -/

/-- Claim C2: for every sequence of file insertions processed through
_process_batch_fast starting from a fresh analyzer, the top-files tracker of
capacity top_n_limit = 50 holds exactly min(50, files inserted) entries, the
minimum size held is at least the size of every inserted file not held, and
the tracker step pushes while under capacity and, once full, replaces the
current minimum exactly when the new size is strictly larger. -/
theorem c2_topk_invariant (cfg : Config) (ds : DirMap) (files : List FileEntry) :
    ((processBatchFast cfg (initialState cfg) ds files).1.topFiles).length
        = min topNLimit files.length
    ∧ (∀ f ∈ files,
        (f.size, f.path) ∉ (processBatchFast cfg (initialState cfg) ds files).1.topFiles →
          f.size ≤ topMinSize (processBatchFast cfg (initialState cfg) ds files).1.topFiles)
    ∧ (∀ (h : List (Nat × Path)) (s : Nat) (p : Path),
        (h.length < topNLimit → topPush h topNLimit s p = insertPair (s, p) h)
        ∧ (topNLimit ≤ h.length → topMinSize h < s →
            topPush h topNLimit s p = insertPair (s, p) h.tail)
        ∧ (topNLimit ≤ h.length → s ≤ topMinSize h → topPush h topNLimit s p = h)) := by
  have hfold := topFold_inv topNLimit (by decide) files [] [] (topInv_nil topNLimit)
  rw [List.nil_append] at hfold
  obtain ⟨_, hlen, hbound⟩ := hfold
  have htf : (processBatchFast cfg (initialState cfg) ds files).1.topFiles
      = topFold topNLimit [] files := by
    rw [processBatchFast_topFiles]
    rfl
  refine ⟨?_, ?_, ?_⟩
  · rw [htf]; exact hlen
  · intro f hf hnot
    rw [htf] at hnot ⊢
    exact (hbound f hf hnot).2
  · intro h s p
    refine ⟨?_, ?_, ?_⟩
    · intro hlt
      simp [topPush, hlt]
    · intro hge hrep
      have hnlt : ¬ h.length < topNLimit := by omega
      simp [topPush, hnlt, hrep]
    · intro hge hkeep
      have hnlt : ¬ h.length < topNLimit := by omega
      have hnrep : ¬ topMinSize h < s := by omega
      simp [topPush, hnlt, hnrep]

/-- Witness for C2 at a concrete insertion sequence. -/
theorem c2_witness :
    ((processBatchFast cfgW (initialState cfgW) [] filesTopK).1.topFiles).length
      = min topNLimit filesTopK.length :=
  (c2_topk_invariant cfgW [] filesTopK).1

/-- Claim C3 counterexample: a walk with a 5-byte file directly in the root
and a 3-byte file in subdirectory a produces a root node of size 26 with one
recorded child of size 6 (each size is accumulated twice, root-level files
four times at the root), so a node with recorded children whose size differs
from the sum of its children's sizes. -/
theorem c3_counterexample :
    (scanWalk cfgW (initialState cfgW) dirsNested none).2.children.length = 1
    ∧ ((scanWalk cfgW (initialState cfgW) dirsNested none).2.children.map
        TreeNode.size).sum = 6
    ∧ (scanWalk cfgW (initialState cfgW) dirsNested none).2.size = 26
    ∧ ¬ (scanWalk cfgW (initialState cfgW) dirsNested none).2.size
        = ((scanWalk cfgW (initialState cfgW) dirsNested none).2.children.map
            TreeNode.size).sum := by
  refine ⟨rfl, rfl, rfl, ?_⟩
  intro h
  rw [show (scanWalk cfgW (initialState cfgW) dirsNested none).2.size = 26 from rfl,
    show ((scanWalk cfgW (initialState cfgW) dirsNested none).2.children.map
      TreeNode.size).sum = 6 from rfl] at h
  exact absurd h (by decide)

/-- Claim C3 (amended): in every tree the walk strategy produces, the root's
size is at least (not equal to) the sum of the recorded children's sizes,
and every non-root node has an empty children list. -/
theorem c3_size_dominates_children (cfg : Config) (st : AnalyzerState)
    (dirs : List WalkDir) (stopAt : Option Nat) :
    ((scanWalk cfg st dirs stopAt).2.children.map TreeNode.size).sum
        ≤ (scanWalk cfg st dirs stopAt).2.size
    ∧ ∀ c ∈ (scanWalk cfg st dirs stopAt).2.children, c.children = [] := by
  have hdom : RootDom cfg.rootPath
      (processBatchFast cfg (walkLoop cfg stopAt ⟨st, [], []⟩ dirs 0).st
        (walkLoop cfg stopAt ⟨st, [], []⟩ dirs 0).dirSizes
        (walkLoop cfg stopAt ⟨st, [], []⟩ dirs 0).allFiles).2 := by
    apply rootDom_processBatch
    apply rootDom_walkLoop
    exact rootDom_nil _
  constructor
  · simpa [scanWalk] using buildTree_children_sum_le cfg.rootPath _ hdom
  · intro c hc
    simp only [scanWalk] at hc
    exact (buildTree_child_shape cfg.rootPath _ c hc).1

/-- Witness for C3 (amended) at a concrete walk. -/
theorem c3_witness :
    ((scanWalk cfgW (initialState cfgW) dirsNested none).2.children.map
        TreeNode.size).sum
      ≤ (scanWalk cfgW (initialState cfgW) dirsNested none).2.size :=
  (c3_size_dominates_children cfgW (initialState cfgW) dirsNested none).1

/-- Claim C4 counterexample: the aggregator's empty-map tree has total size
0 yet root percentage 100, where the claim requires 0. -/
theorem c4_counterexample :
    (buildTreeFromDirs ["r"] []).size = 0
    ∧ (buildTreeFromDirs ["r"] []).percentage = 100
    ∧ ¬ ((100 : ℚ) = 0) := by
  refine ⟨rfl, rfl, by norm_num⟩

/-- The root percentage is hard-coded 100 in both aggregator branches. -/
theorem buildTree_root_pct (root : Path) (ds : DirMap) :
    (buildTreeFromDirs root ds).percentage = 100 := by
  cases ds <;> rfl

/-- Claim C4 (amended): in every walk-strategy tree the root percentage is
always 100 (also when the total size is 0), and every child percentage lies
in [0, 100]. -/
theorem c4_percentage_bounds (cfg : Config) (st : AnalyzerState)
    (dirs : List WalkDir) (stopAt : Option Nat) :
    (scanWalk cfg st dirs stopAt).2.percentage = 100
    ∧ ∀ c ∈ (scanWalk cfg st dirs stopAt).2.children,
        0 ≤ c.percentage ∧ c.percentage ≤ 100 := by
  have hdom : RootDom cfg.rootPath
      (processBatchFast cfg (walkLoop cfg stopAt ⟨st, [], []⟩ dirs 0).st
        (walkLoop cfg stopAt ⟨st, [], []⟩ dirs 0).dirSizes
        (walkLoop cfg stopAt ⟨st, [], []⟩ dirs 0).allFiles).2 := by
    apply rootDom_processBatch
    apply rootDom_walkLoop
    exact rootDom_nil _
  constructor
  · simp only [scanWalk]
    exact buildTree_root_pct cfg.rootPath _
  · intro c hc
    simp only [scanWalk] at hc
    obtain ⟨-, e, he, hne, -, hpct⟩ := buildTree_child_shape cfg.rootPath _ c hc
    have hle := entry_le_root cfg.rootPath _ hdom e he hne
    rw [hpct]
    exact percentage_in_range e.2 _ hle

/-- Witness for C4 (amended) at a concrete walk. -/
theorem c4_witness :
    (scanWalk cfgW (initialState cfgW) dirsNested none).2.percentage = 100 :=
  (c4_percentage_bounds cfgW (initialState cfgW) dirsNested none).1

/-- Claim C9 counterexample: two dir_sizes maps holding the same entries,
with the two equal-sized children inserted in opposite orders, make the
aggregator emit the children in those insertion orders — [b, a] and [a, b]
respectively — so ties are broken by dict insertion order, not by name. -/
theorem c9_counterexample :
    dsTieBA.Perm dsTieAB
    ∧ ((buildTreeFromDirs ["r"] dsTieBA).children.map TreeNode.name) = ["b", "a"]
    ∧ ((buildTreeFromDirs ["r"] dsTieAB).children.map TreeNode.name) = ["a", "b"]
    ∧ ¬ (["b", "a"] : List String) = ["a", "b"] := by
  exact ⟨List.Perm.cons _ (List.Perm.swap _ _ _), rfl, rfl, by decide⟩

/-- Claim C9 (amended): at every level of every aggregator tree the children
are sorted by size descending (ties keep dict insertion order, the sort
being stable) and capped at 100 entries; deeper levels are empty lists. -/
theorem c9_children_sorted_capped (root : Path) (ds : DirMap) :
    (buildTreeFromDirs root ds).children.length ≤ 100
    ∧ List.Pairwise (fun a b : TreeNode => b.size ≤ a.size)
        (buildTreeFromDirs root ds).children
    ∧ ∀ c ∈ (buildTreeFromDirs root ds).children, c.children = [] := by
  cases ds with
  | nil => simp [buildTreeFromDirs]
  | cons e0 rest =>
    refine ⟨?_, ?_, ?_⟩
    · simp only [buildTreeFromDirs, List.length_map]
      exact le_trans (List.length_take_le 100 _) (le_refl _)
    · simp only [buildTreeFromDirs]
      rw [List.pairwise_map]
      exact ((sortByKeyDesc_pairwise (fun e : Path × Nat => e.2) _).sublist
        (List.take_sublist 100 _))
    · intro c hc
      exact (buildTree_child_shape root (e0 :: rest) c hc).1

/-- Witness for C9 (amended) at a concrete map. -/
theorem c9_witness :
    (buildTreeFromDirs ["r"] dsTieBA).children.length ≤ 100 :=
  (c9_children_sorted_capped ["r"] dsTieBA).1

/-! ### Orchestrator-level helper lemmas -/

theorem cacheValid_false (now : Nat) (cache : Option (Nat × ScanResult)) :
    cacheValid false now cache = false := by
  simp [cacheValid]

theorem buildResult_stats (cfg : Config) (st : AnalyzerState) (t : TreeNode)
    (du : ℚ) : (buildResult cfg st t du).scanStats = st.scanStats := rfl

theorem buildResult_dup (cfg : Config) (st : AnalyzerState) (t : TreeNode)
    (du : ℚ) : (buildResult cfg st t du).duplicateFiles = st.duplicateFiles := rfl

theorem scan_fresh_nocache (cfg : Config) (st : AnalyzerState)
    (cache : Option (Nat × ScanResult)) (now : Nat) (du : ℚ)
    (dirs : List WalkDir) :
    scan cfg false st cache now du dirs none
      = (postProcess (scanWalk cfg st dirs none).1, cache,
         buildResult cfg (postProcess (scanWalk cfg st dirs none).1)
           (scanWalk cfg st dirs none).2 du) := by
  simp [scan, cacheValid_false, scanRun]

theorem scan_fresh_cache (cfg : Config) (st : AnalyzerState)
    (cache : Option (Nat × ScanResult)) (now : Nat) (du : ℚ)
    (dirs : List WalkDir) (hmiss : cacheValid true now cache = false) :
    scan cfg true st cache now du dirs none
      = (postProcess (scanWalk cfg st dirs none).1,
         some (now, buildResult cfg (postProcess (scanWalk cfg st dirs none).1)
           (scanWalk cfg st dirs none).2 du),
         buildResult cfg (postProcess (scanWalk cfg st dirs none).1)
           (scanWalk cfg st dirs none).2 du) := by
  simp [scan, hmiss, scanRun]

/-- Claim C1 counterexample: on one long-lived analyzer with caching off,
a first scan over one file and a second scan over one more file leave the
second scan's result reporting 2 scanned files, not the 1 the claim's
clearing would give. -/
theorem c1_counterexample :
    (scan cfgW false (scan cfgW false (initialState cfgW) none 0 0 dirsRunA none).1
        none 1 0 dirsRunB none).2.2.scanStats.scannedFiles = 2
    ∧ ¬ (scan cfgW false (scan cfgW false (initialState cfgW) none 0 0 dirsRunA none).1
        none 1 0 dirsRunB none).2.2.scanStats.scannedFiles = 1 := by
  have h2 : (scan cfgW false (scan cfgW false (initialState cfgW) none 0 0 dirsRunA none).1
      none 1 0 dirsRunB none).2.2.scanStats.scannedFiles = 2 := rfl
  exact ⟨h2, by omega⟩

/-- Claim C1 (amended): scan() clears no run-scoped accumulator — the
counters persist in the instance, so after two consecutive scans on a fresh
analyzer the second result's counters cover the files recorded by both
runs. -/
theorem c1_accumulators_persist (cfg : Config) (t1 t2 : Nat) (du1 du2 : ℚ)
    (dirs1 dirs2 : List WalkDir) :
    (scan cfg false (scan cfg false (initialState cfg) none t1 du1 dirs1 none).1
        none t2 du2 dirs2 none).2.2.scanStats.scannedFiles
      = (walkAllFiles cfg dirs1 none).length + (walkAllFiles cfg dirs2 none).length
    ∧ (scan cfg false (scan cfg false (initialState cfg) none t1 du1 dirs1 none).1
        none t2 du2 dirs2 none).2.2.scanStats.scannedBytes
      = ((walkAllFiles cfg dirs1 none).map FileEntry.size).sum
        + ((walkAllFiles cfg dirs2 none).map FileEntry.size).sum := by
  rw [scan_fresh_nocache cfg (initialState cfg) none t1 du1 dirs1]
  rw [scan_fresh_nocache cfg _ none t2 du2 dirs2]
  simp only [buildResult_stats, postProcess_stats]
  obtain ⟨ha1, hb1⟩ := scanWalk_stats cfg (initialState cfg) dirs1 none
  obtain ⟨ha2, hb2⟩ := scanWalk_stats cfg
    (postProcess (scanWalk cfg (initialState cfg) dirs1 none).1) dirs2 none
  rw [postProcess_stats] at ha2 hb2
  have h0f : (initialState cfg).scanStats.scannedFiles = 0 := rfl
  have h0b : (initialState cfg).scanStats.scannedBytes = 0 := rfl
  constructor
  · rw [ha2, ha1, h0f]
    omega
  · rw [hb2, hb1, h0b]
    omega

/-- Witness for C1 (amended) at a concrete pair of runs. -/
theorem c1_witness :
    (scan cfgW false (scan cfgW false (initialState cfgW) none 0 0 dirsRunA none).1
        none 1 0 dirsRunB none).2.2.scanStats.scannedFiles
      = (walkAllFiles cfgW dirsRunA none).length
        + (walkAllFiles cfgW dirsRunB none).length :=
  (c1_accumulators_persist cfgW 0 1 0 0 dirsRunA dirsRunB).1

/-- Claim C5 counterexample: scanning two byte-identical same-size files in
different directories yields an empty duplicate_files map — zero groups, not
the single two-member group the claim requires (the analyzer never reads
file contents nor populates duplicate_files). -/
theorem c5_counterexample :
    (scan cfgW false (initialState cfgW) none 0 0 dirsDup none).2.2.duplicateFiles = []
    ∧ ¬ (scan cfgW false (initialState cfgW) none 0 0 dirsDup none).2.2.duplicateFiles.length
        = 1 := by
  have h0 : (scan cfgW false (initialState cfgW) none 0 0 dirsDup none).2.2.duplicateFiles
      = [] := rfl
  refine ⟨h0, ?_⟩
  rw [h0]
  decide

/-- Claim C5 (amended): every scan result of a fresh analyzer carries an
empty duplicate_files map — no code path ever inserts a group — so each of
its (zero) groups trivially has at least two members, and no input produces
a non-empty group. -/
theorem c5_duplicates_empty (cfg : Config) (uc : Bool) (now : Nat) (du : ℚ)
    (dirs : List WalkDir) (stopAt : Option Nat) :
    (scan cfg uc (initialState cfg) none now du dirs stopAt).2.2.duplicateFiles = [] := by
  have hcv : cacheValid uc now none = false := by cases uc <;> rfl
  cases stopAt with
  | some k =>
    have hrun : scan cfg uc (initialState cfg) none now du dirs (some k)
        = ((scanWalk cfg (initialState cfg) dirs (some k)).1, none,
           createPartialResult cfg (scanWalk cfg (initialState cfg) dirs (some k)).1 du) := by
      simp [scan, hcv, scanRun]
    rw [hrun]
    rfl
  | none =>
    cases uc with
    | false =>
      rw [scan_fresh_nocache cfg (initialState cfg) none now du dirs]
      show (buildResult cfg (postProcess (scanWalk cfg (initialState cfg) dirs none).1)
        (scanWalk cfg (initialState cfg) dirs none).2 du).duplicateFiles = []
      rw [buildResult_dup, postProcess_dup, scanWalk_dup]
      rfl
    | true =>
      rw [scan_fresh_cache cfg (initialState cfg) none now du dirs hcv]
      show (buildResult cfg (postProcess (scanWalk cfg (initialState cfg) dirs none).1)
        (scanWalk cfg (initialState cfg) dirs none).2 du).duplicateFiles = []
      rw [buildResult_dup, postProcess_dup, scanWalk_dup]
      rfl

/-- Witness for C5 (amended) at a concrete run. -/
theorem c5_witness :
    (scan cfgW true (initialState cfgW) none 0 0 dirsDup none).2.2.duplicateFiles = [] :=
  c5_duplicates_empty cfgW true 0 0 dirsDup none

/-- Claim C6: a full (non-cancelled) run under a cache miss writes its
result at the current time; any later scan whose cache age is under the
600-second TTL short-circuits and returns exactly the stored state and
result, and once the age reaches the TTL the check misses and the scan body
runs afresh. -/
theorem c6_cache_ttl (cfg : Config) (st0 : AnalyzerState)
    (c0 : Option (Nat × ScanResult)) (t0 : Nat) (du : ℚ) (dirs : List WalkDir)
    (hmiss : cacheValid true t0 c0 = false) :
    (scan cfg true st0 c0 t0 du dirs none).2.1
        = some (t0, (scan cfg true st0 c0 t0 du dirs none).2.2)
    ∧ (∀ (t1 : Nat) (du1 : ℚ) (dirs1 : List WalkDir) (stop1 : Option Nat),
        t1 - t0 < 600 →
          scan cfg true (scan cfg true st0 c0 t0 du dirs none).1
              (scan cfg true st0 c0 t0 du dirs none).2.1 t1 du1 dirs1 stop1
            = ((scan cfg true st0 c0 t0 du dirs none).1,
               (scan cfg true st0 c0 t0 du dirs none).2.1,
               (scan cfg true st0 c0 t0 du dirs none).2.2))
    ∧ (∀ (t1 : Nat) (du1 : ℚ) (dirs1 : List WalkDir) (stop1 : Option Nat),
        600 ≤ t1 - t0 →
          scan cfg true (scan cfg true st0 c0 t0 du dirs none).1
              (scan cfg true st0 c0 t0 du dirs none).2.1 t1 du1 dirs1 stop1
            = scanRun cfg true (scan cfg true st0 c0 t0 du dirs none).1
                (scan cfg true st0 c0 t0 du dirs none).2.1 t1 du1 dirs1 stop1) := by
  rw [scan_fresh_cache cfg st0 c0 t0 du dirs hmiss]
  refine ⟨rfl, ?_, ?_⟩
  · intro t1 du1 dirs1 stop1 h
    have hhit : cacheValid true t1 (some (t0,
        buildResult cfg (postProcess (scanWalk cfg st0 dirs none).1)
          (scanWalk cfg st0 dirs none).2 du)) = true := by
      simp [cacheValid, h]
    simp [scan, hhit]
  · intro t1 du1 dirs1 stop1 h
    have hmiss2 : cacheValid true t1 (some (t0,
        buildResult cfg (postProcess (scanWalk cfg st0 dirs none).1)
          (scanWalk cfg st0 dirs none).2 du)) = false := by
      simp [cacheValid]
      omega
    simp [scan, hmiss2]

/-- Witness for C6 at a concrete run and re-read within the TTL. -/
theorem c6_witness :
    scan cfgW true (scan cfgW true (initialState cfgW) none 0 0 dirsRunA none).1
        (scan cfgW true (initialState cfgW) none 0 0 dirsRunA none).2.1 10 0 [] none
      = ((scan cfgW true (initialState cfgW) none 0 0 dirsRunA none).1,
         (scan cfgW true (initialState cfgW) none 0 0 dirsRunA none).2.1,
         (scan cfgW true (initialState cfgW) none 0 0 dirsRunA none).2.2) :=
  (c6_cache_ttl cfgW (initialState cfgW) none 0 0 dirsRunA rfl).2.1 10 0 [] none
    (by decide)

/-- Claim C7 counterexample: a scan cancelled after fully processing the
subdirectory a (5 bytes recorded) returns a partial result whose tree is a
childless root — the processed subtree appears nowhere in the tree, against
the claim's tree reflecting the subtrees processed before cancellation. -/
theorem c7_counterexample :
    (scan cfgW false (initialState cfgW) none 0 0 dirsSub (some 2)).2.2.isPartial = true
    ∧ (scan cfgW false (initialState cfgW) none 0 0 dirsSub (some 2)).2.2.scanStats.scannedBytes = 5
    ∧ (scan cfgW false (initialState cfgW) none 0 0 dirsSub (some 2)).2.2.dirTree.children = [] :=
  ⟨rfl, rfl, rfl⟩

/-- Claim C7 (amended): whenever the stop event is observed, scan() returns
normally with the partial result: partial=true, empty duplicate, history,
flat-dir and suggestion lists, the accumulated file-type histogram, top
files, cleanable entries and stats as they stand, and a single-node tree
sized by the accumulated byte counter with no recorded children. -/
theorem c7_partial_result (cfg : Config) (uc : Bool) (st : AnalyzerState)
    (now : Nat) (du : ℚ) (dirs : List WalkDir) (k : Nat) :
    scan cfg uc st none now du dirs (some k)
      = ((scanWalk cfg st dirs (some k)).1, none,
         createPartialResult cfg (scanWalk cfg st dirs (some k)).1 du)
    ∧ (createPartialResult cfg (scanWalk cfg st dirs (some k)).1 du).isPartial = true
    ∧ (createPartialResult cfg (scanWalk cfg st dirs (some k)).1 du).duplicateFiles = []
    ∧ (createPartialResult cfg (scanWalk cfg st dirs (some k)).1 du).historyData = []
    ∧ (createPartialResult cfg (scanWalk cfg st dirs (some k)).1 du).flatDirs = []
    ∧ (createPartialResult cfg (scanWalk cfg st dirs (some k)).1 du).securitySuggestions = []
    ∧ (createPartialResult cfg (scanWalk cfg st dirs (some k)).1 du).fileTypes
        = (scanWalk cfg st dirs (some k)).1.fileTypes
    ∧ (createPartialResult cfg (scanWalk cfg st dirs (some k)).1 du).cleanableFiles
        = (scanWalk cfg st dirs (some k)).1.cleanableFiles
    ∧ (createPartialResult cfg (scanWalk cfg st dirs (some k)).1 du).topFiles
        = (scanWalk cfg st dirs (some k)).1.topFiles.map (fun sp => ⟨sp.2, sp.1⟩)
    ∧ (createPartialResult cfg (scanWalk cfg st dirs (some k)).1 du).scanStats
        = (scanWalk cfg st dirs (some k)).1.scanStats
    ∧ (createPartialResult cfg (scanWalk cfg st dirs (some k)).1 du).dirTree.size
        = (scanWalk cfg st dirs (some k)).1.scanStats.scannedBytes
    ∧ (createPartialResult cfg (scanWalk cfg st dirs (some k)).1 du).dirTree.children
        = [] := by
  have hcv : cacheValid uc now none = false := by cases uc <;> rfl
  refine ⟨?_, rfl, rfl, rfl, rfl, rfl, rfl, rfl, rfl, rfl, rfl, rfl⟩
  simp [scan, hcv, scanRun]

/-- Witness for C7 (amended) at a concrete cancelled run. -/
theorem c7_witness :
    scan cfgW false (initialState cfgW) none 0 0 dirsSub (some 2)
      = ((scanWalk cfgW (initialState cfgW) dirsSub (some 2)).1, none,
         createPartialResult cfgW
           (scanWalk cfgW (initialState cfgW) dirsSub (some 2)).1 0) :=
  (c7_partial_result cfgW false (initialState cfgW) 0 0 dirsSub 2).1

/-- Claim C8 counterexample: a fast-find scan cancelled after one 5-byte
file was recorded (processed into the aggregates, as its file-type histogram
shows) reports scanned_bytes = 0: the trailing partial batch is never added
to the progress counters. -/
theorem c8_counterexample :
    (scanFastFind cfgW (initialState cfgW) linesFind (some 1)).1.scanStats.scannedBytes = 0
    ∧ ((findRecorded cfgW (some 1) linesFind 0).map FindLine.size).sum = 5
    ∧ (scanFastFind cfgW (initialState cfgW) linesFind (some 1)).1.fileTypes
        = [("no_ext", 5)]
    ∧ ¬ (scanFastFind cfgW (initialState cfgW) linesFind (some 1)).1.scanStats.scannedBytes
        = ((findRecorded cfgW (some 1) linesFind 0).map FindLine.size).sum := by
  have ha : (scanFastFind cfgW (initialState cfgW) linesFind
      (some 1)).1.scanStats.scannedBytes = 0 := rfl
  have hb : ((findRecorded cfgW (some 1) linesFind 0).map FindLine.size).sum = 5 := rfl
  refine ⟨ha, hb, rfl, ?_⟩
  rw [ha, hb]
  decide

/-- Claim C8 (amended): for the walk strategy the final counters are exact —
scanned_files and scanned_bytes grow by exactly the count and total size of
the files the run recorded, cancelled or not; for the fast-find strategy the
counters cover exactly the recorded files of the complete 1000-file batches,
the trailing partial batch being processed into the aggregates without ever
reaching the progress counters. -/
theorem c8_scanned_bytes (cfg : Config) (st : AnalyzerState)
    (dirs : List WalkDir) (lines : List FindLine) (stopAt : Option Nat) :
    ((scanWalk cfg st dirs stopAt).1.scanStats.scannedFiles
        = st.scanStats.scannedFiles + (walkAllFiles cfg dirs stopAt).length
      ∧ (scanWalk cfg st dirs stopAt).1.scanStats.scannedBytes
        = st.scanStats.scannedBytes
          + ((walkAllFiles cfg dirs stopAt).map FileEntry.size).sum)
    ∧ ((scanFastFind cfg st lines stopAt).1.scanStats.scannedFiles
        = st.scanStats.scannedFiles + findBatchSize
            * ((findRecorded cfg stopAt lines 0).length / findBatchSize)
      ∧ (scanFastFind cfg st lines stopAt).1.scanStats.scannedBytes
        = st.scanStats.scannedBytes
          + (((findRecorded cfg stopAt lines 0).take
              (findBatchSize * ((findRecorded cfg stopAt lines 0).length
                / findBatchSize))).map FindLine.size).sum) :=
  ⟨scanWalk_stats cfg st dirs stopAt, scanFastFind_stats cfg st lines stopAt⟩

/-- Witness for C8 (amended) at a concrete cancelled fast-find run. -/
theorem c8_witness :
    (scanFastFind cfgW (initialState cfgW) linesFind (some 1)).1.scanStats.scannedBytes
      = (initialState cfgW).scanStats.scannedBytes
        + (((findRecorded cfgW (some 1) linesFind 0).take
            (findBatchSize * ((findRecorded cfgW (some 1) linesFind 0).length
              / findBatchSize))).map FindLine.size).sum :=
  ((c8_scanned_bytes cfgW (initialState cfgW) [] linesFind (some 1)).2).2

/-- Claim C10: progress counters never decrease — every _update_progress
call adds its (nonnegative) file count and byte total exactly, any sequence
of updates is monotone, and both the walk strategy and the hybrid strategy's
stats merge only ever increase the shared counters. -/
theorem c10_progress_monotone :
    (∀ (st : AnalyzerState) (f b : Nat) (p : Option Path),
        (updateProgress st f b p).scanStats.scannedFiles
            = st.scanStats.scannedFiles + f
        ∧ (updateProgress st f b p).scanStats.scannedBytes
            = st.scanStats.scannedBytes + b)
    ∧ (∀ (st : AnalyzerState) (us : List (Nat × Nat × Option Path)),
        st.scanStats.scannedFiles ≤ (applyUpdates st us).scanStats.scannedFiles
        ∧ st.scanStats.scannedBytes ≤ (applyUpdates st us).scanStats.scannedBytes)
    ∧ (∀ (cfg : Config) (st : AnalyzerState) (dirs : List WalkDir)
          (stopAt : Option Nat),
        st.scanStats.scannedFiles ≤ (scanWalk cfg st dirs stopAt).1.scanStats.scannedFiles
        ∧ st.scanStats.scannedBytes ≤ (scanWalk cfg st dirs stopAt).1.scanStats.scannedBytes)
    ∧ (∀ (cfg : Config) (st : AnalyzerState) (duSize : Nat) (dirs : List WalkDir)
          (stopAt : Option Nat),
        st.scanStats.scannedFiles
            ≤ (scanHybrid cfg st duSize dirs stopAt).1.scanStats.scannedFiles
        ∧ st.scanStats.scannedBytes
            ≤ (scanHybrid cfg st duSize dirs stopAt).1.scanStats.scannedBytes) := by
  refine ⟨fun st f b p => ⟨rfl, rfl⟩, ?_, ?_, ?_⟩
  · intro st us
    induction us generalizing st with
    | nil => exact ⟨le_refl _, le_refl _⟩
    | cons u rest ih =>
      obtain ⟨h1, h2⟩ := ih (updateProgress st u.1 u.2.1 u.2.2)
      simp only [applyUpdates, List.foldl_cons] at h1 h2 ⊢
      simp only [updateProgress] at h1 h2 ⊢
      exact ⟨by omega, by omega⟩
  · intro cfg st dirs stopAt
    obtain ⟨h1, h2⟩ := scanWalk_stats cfg st dirs stopAt
    exact ⟨by omega, by omega⟩
  · intro cfg st duSize dirs stopAt
    simp only [scanHybrid]
    exact ⟨Nat.le_add_right _ _, Nat.le_add_right _ _⟩

/-- Witness for C10 at a concrete update. -/
theorem c10_witness :
    (updateProgress (initialState cfgW) 1 2 none).scanStats.scannedFiles
      = (initialState cfgW).scanStats.scannedFiles + 1 :=
  (c10_progress_monotone.1 (initialState cfgW) 1 2 none).1

end DiskAnalyzer
